import Mathlib

/-!
Verification of the SQL statement splitter of ultimate-sql-bootcamp.

The definitions below are a shallow embedding, over `List Char`, of
`SQLRunner._split_sql_statements` (src/sql_runner.py, lines 40-99) and of
`remove_sql_comments` (src/run_sql.py, lines 11-46).  Python strings are
modelled as `List Char`; Python's `str.strip()` becomes `strip`, `str.split('\n')`
becomes `splitLines`, `'\n'.join` becomes `joinNL`, `'--' in line` becomes
`hasDD`, `line[:line.index('--')]` becomes `truncAtDD`, and the character
scan with `in_string` / `string_char` state becomes `scanStmts` (the
`string_char` variable is `Option Char`: `none` when `in_string` is false).
-/

set_option maxHeartbeats 1000000

namespace SqlSplit

/-- Whitespace recognised by Python's `str.strip()` on ASCII text. -/
def pyIsSpace (c : Char) : Bool :=
  c == ' ' || c == '\t' || c == '\n' || c == '\r' || c == '\x0b' || c == '\x0c'

/-- Python `s.lstrip()`: drop leading whitespace. -/
def stripStart (l : List Char) : List Char := l.dropWhile pyIsSpace

/-- Python `s.rstrip()`: drop trailing whitespace. -/
def stripEnd (l : List Char) : List Char := (l.reverse.dropWhile pyIsSpace).reverse

/-- Python `s.strip()`: drop whitespace at both ends. -/
def strip (l : List Char) : List Char := stripEnd (stripStart l)

/-- Python `stripped.startswith('--')`. -/
def startsWithDD : List Char → Bool
  | '-' :: '-' :: _ => true
  | _ => false

/-- Python `'--' in line`: the line contains two adjacent dash characters. -/
def hasDD : List Char → Bool
  | [] => false
  | [_] => false
  | a :: b :: rest => (a == '-' && b == '-') || hasDD (b :: rest)

/-- Python `line[:line.index('--')]`: the prefix before the first `--`. -/
def truncAtDD : List Char → List Char
  | [] => []
  | [a] => [a]
  | a :: b :: rest => if a == '-' && b == '-' then [] else a :: truncAtDD (b :: rest)

/-- Python `sql_content.split('\n')`. -/
def splitLines : List Char → List (List Char)
  | [] => [[]]
  | c :: rest =>
    if c = '\n' then [] :: splitLines rest
    else
      match splitLines rest with
      | [] => [[c]]
      | l :: ls => (c :: l) :: ls

/-- Python `'\n'.join(clean_lines)`. -/
def joinNL : List (List Char) → List Char
  | [] => []
  | [l] => l
  | l :: l' :: ls => l ++ '\n' :: joinNL (l' :: ls)

/-- One iteration of the comment-removal loop of `_split_sql_statements`
(src/sql_runner.py lines 49-57): skip comment-only lines, truncate a line at
its first `--` otherwise, and keep the line only if non-blank. -/
def processLine (line : List Char) : Option (List Char) :=
  if startsWithDD (strip line) then none
  else
    let line2 := if hasDD line then truncAtDD line else line
    if strip line2 = [] then none else some line2

/-- The `clean_sql` value of `_split_sql_statements` (src/sql_runner.py line 59). -/
def cleanSQL (s : List Char) : List Char :=
  joinNL ((splitLines s).filterMap processLine)

/-- Emission of one accumulated buffer: `stmt = ...strip()` followed by
`if stmt: statements.append(stmt)`. -/
def emitStmt (t : List Char) : List (List Char) :=
  if strip t = [] then [] else [strip t]

/-- The character scan of `_split_sql_statements` (src/sql_runner.py lines
62-94).  The second argument is the `string_char` variable (`none` when
`in_string` is false), the third is the slice `clean_sql[start:i]`
accumulated so far, the fourth is the `statements` list built so far. -/
def scanStmts : List Char → Option Char → List Char → List (List Char) → List (List Char)
  | [], _, buf, acc => acc ++ emitStmt buf
  | c :: rest, none, buf, acc =>
    if c = '\'' ∨ c = '"' then scanStmts rest (some c) (buf ++ [c]) acc
    else if c = ';' then scanStmts rest none [] (acc ++ emitStmt buf)
    else scanStmts rest none (buf ++ [c]) acc
  | c :: c2 :: rest2, some q, buf, acc =>
    if c = q then
      if c2 = q then scanStmts rest2 (some q) (buf ++ [c, c2]) acc
      else scanStmts (c2 :: rest2) none (buf ++ [c]) acc
    else scanStmts (c2 :: rest2) (some q) (buf ++ [c]) acc
  | [c], some _, buf, acc => acc ++ emitStmt (buf ++ [c])

/-- `SQLRunner._split_sql_statements` (src/sql_runner.py lines 40-99) on its
string-typed argument: comment removal followed by the semicolon scan. -/
def split_sql_statements (s : List Char) : List (List Char) :=
  scanStmts (cleanSQL s) none [] []

/-- Python `";\n".join(statements)`, the re-joining used by the idempotence
property of the specification. -/
def joinSemi : List (List Char) → List Char
  | [] => []
  | [s] => s
  | s :: s2 :: rest => s ++ ';' :: '\n' :: joinSemi (s2 :: rest)

/-- The quote-aware per-line comment scan of `remove_sql_comments`
(src/run_sql.py lines 22-42).  Second argument: the `quote_char` variable
(`none` when `in_quotes` is false); third argument: `line[i-1]` (`none` at
`i = 0`).  Returns the possibly truncated line. -/
def rsScan : List Char → Option Char → Option Char → List Char
  | [], _, _ => []
  | c :: rest, none, _ =>
    if c = '\'' ∨ c = '"' then c :: rsScan rest (some c) (some c)
    else if c = '-' ∧ rest.head? = some '-' then []
    else c :: rsScan rest none (some c)
  | c :: c2 :: rest2, some q, prev =>
    if c = q then
      if prev = some '\\' then c :: rsScan (c2 :: rest2) (some q) (some c)
      else if c2 = q then c :: c2 :: rsScan rest2 (some q) (some c2)
      else c :: rsScan (c2 :: rest2) none (some c)
    else c :: rsScan (c2 :: rest2) (some q) (some c)
  | [c], some _, _ => [c]

/-- One iteration of the line loop of `remove_sql_comments`
(src/run_sql.py lines 16-44). -/
def processLineRS (line : List Char) : Option (List Char) :=
  if startsWithDD (strip line) then none
  else
    let line2 := if hasDD line then rsScan line none none else line
    if strip line2 = [] then none else some line2

/-- `remove_sql_comments` (src/run_sql.py lines 11-46). -/
def remove_sql_comments (s : List Char) : List Char :=
  joinNL ((splitLines s).filterMap processLineRS)

/-- The final `string_char` state after running the quoting rules of the
scan of `_split_sql_statements` over a list of characters, starting from a
given state.  Mirrors the state transitions of `scanStmts` exactly. -/
def qscan : List Char → Option Char → Option Char
  | [], st => st
  | c :: rest, none =>
    if c = '\'' ∨ c = '"' then qscan rest (some c) else qscan rest none
  | c :: c2 :: rest2, some q =>
    if c = q then
      if c2 = q then qscan rest2 (some q) else qscan (c2 :: rest2) none
    else qscan (c2 :: rest2) (some q)
  | [c], some q => if c = q then none else some q

/-- True when the scan of `_split_sql_statements`, started in the given
state, meets no semicolon outside string mode while crossing the list
(such a semicolon would end a statement there). -/
def noOutSemi : List Char → Option Char → Bool
  | [], _ => true
  | c :: rest, none =>
    if c = ';' then false
    else if c = '\'' ∨ c = '"' then noOutSemi rest (some c)
    else noOutSemi rest none
  | c :: c2 :: rest2, some q =>
    if c = q then
      if c2 = q then noOutSemi rest2 (some q) else noOutSemi (c2 :: rest2) none
    else noOutSemi (c2 :: rest2) (some q)
  | [_], some _ => true

/-- Helper for reasoning about `hasDD`: the list starts with a dash. -/
def headDash : List Char → Bool
  | c :: _ => c == '-'
  | [] => false

/-- Helper for reasoning about `hasDD`: the list ends with a dash. -/
def lastDash (l : List Char) : Bool := headDash l.reverse

/-- Gluing of line lists used to describe `splitLines` of an append:
the last line of the first block merges with the first line of the second. -/
def glueLines (xs ys : List (List Char)) : List (List Char) :=
  match ys with
  | [] => xs
  | y :: ys' => xs.dropLast ++ (xs.getLastD [] ++ y) :: ys'

/-- Interior elements of a list: all but the first and the last. -/
def midLines (xs : List (List Char)) : List (List Char) := xs.tail.dropLast

/-- States the `string_char` variable of the scan can actually be in:
no string open, or a string opened by one of the two quote characters. -/
def okState (st : Option Char) : Prop :=
  st = none ∨ st = some '\'' ∨ st = some '"'

/-! Lemmas about `strip`. -/

theorem stripEnd_eq (l : List Char) :
    stripEnd l = (l.reverse.dropWhile pyIsSpace).reverse := rfl

theorem stripEnd_front (l : List Char) : stripEnd l <+: l := by
  apply List.reverse_suffix.mp
  simpa [stripEnd_eq] using List.dropWhile_suffix (l := l.reverse) pyIsSpace

theorem stripStart_suffix (l : List Char) : stripStart l <:+ l :=
  List.dropWhile_suffix pyIsSpace

theorem strip_within (l : List Char) : strip l <:+: l := by
  have h1 : strip l <+: stripStart l := stripEnd_front _
  have h2 : stripStart l <:+ l := stripStart_suffix l
  exact h1.isInfix.trans h2.isInfix

theorem stripStart_decomp (l : List Char) :
    l = l.takeWhile pyIsSpace ++ stripStart l :=
  (List.takeWhile_append_dropWhile pyIsSpace l).symm

theorem stripEnd_decomp (l : List Char) :
    l = stripEnd l ++ (l.reverse.takeWhile pyIsSpace).reverse := by
  have h := List.takeWhile_append_dropWhile pyIsSpace l.reverse
  calc l = l.reverse.reverse := by simp
    _ = (l.reverse.takeWhile pyIsSpace ++ l.reverse.dropWhile pyIsSpace).reverse := by rw [h]
    _ = _ := by rw [List.reverse_append]; rfl

theorem strip_decomp (l : List Char) :
    l = l.takeWhile pyIsSpace ++ strip l ++ ((stripStart l).reverse.takeWhile pyIsSpace).reverse := by
  conv_lhs => rw [stripStart_decomp l, stripEnd_decomp (stripStart l)]
  simp [strip]

theorem mem_takeWhile_ws {l : List Char} {c : Char} (h : c ∈ l.takeWhile pyIsSpace) :
    pyIsSpace c = true := by
  induction l with
  | nil => simp [List.takeWhile] at h
  | cons a l ih =>
    rw [List.takeWhile_cons] at h
    by_cases ha : pyIsSpace a = true
    · simp [ha] at h
      rcases h with rfl | h
      · exact ha
      · exact ih h
    · simp [ha] at h

theorem strip_eq_nil_iff {l : List Char} :
    strip l = [] ↔ ∀ c ∈ l, pyIsSpace c = true := by
  constructor
  · intro h c hc
    rw [strip_decomp l] at hc
    rw [h] at hc
    simp at hc
    rcases hc with hc | hc
    · exact mem_takeWhile_ws hc
    · exact mem_takeWhile_ws (by simpa using hc)
  · intro h
    have h1 : stripStart l = [] := by
      simp only [stripStart, List.dropWhile_eq_nil_iff]
      exact h
    simp [strip, h1, stripEnd_eq]

theorem dropWhile_idem (p : Char → Bool) (l : List Char) :
    (l.dropWhile p).dropWhile p = l.dropWhile p := by
  induction l with
  | nil => simp
  | cons a l ih =>
    rw [List.dropWhile_cons]
    by_cases ha : p a = true
    · simpa [ha] using ih
    · simp [List.dropWhile_cons, ha]

theorem prefix_head_eq {l₁ l₂ : List Char} (h : l₁ <+: l₂) (hne : l₁ ≠ []) :
    l₂.head? = l₁.head? := by
  rcases h with ⟨t, rfl⟩
  cases l₁ with
  | nil => exact absurd rfl hne
  | cons a l => simp

theorem head_dropWhile_not {p : Char → Bool} {l : List Char} (h : l.dropWhile p ≠ []) :
    ∃ c cs, l.dropWhile p = c :: cs ∧ p c = false := by
  induction l with
  | nil => simp at h
  | cons a l ih =>
    rw [List.dropWhile_cons] at h ⊢
    by_cases ha : p a = true
    · simpa [ha] using ih (by simpa [ha] using h)
    · exact ⟨a, l, by simp [ha], by simpa using ha⟩

theorem strip_head_not_ws {l : List Char} (h : strip l ≠ []) :
    ∃ c cs, strip l = c :: cs ∧ pyIsSpace c = false := by
  have hpre : strip l <+: stripStart l := stripEnd_front _
  have hne : stripStart l ≠ [] := by
    intro hc
    rcases hpre with ⟨t, ht⟩
    rw [hc] at ht
    simp at ht
    exact h ht.1
  obtain ⟨c, cs, hcs, hc⟩ := head_dropWhile_not (p := pyIsSpace) (l := l) hne
  have h2 : (strip l).head? = some c := by
    have := prefix_head_eq hpre h
    rw [show stripStart l = c :: cs from hcs] at this
    simpa using this.symm
  cases hs : strip l with
  | nil => exact absurd hs h
  | cons a l' =>
    rw [hs] at h2
    simp at h2
    exact ⟨a, l', rfl, h2 ▸ hc⟩

theorem strip_last_not_ws {l : List Char} (h : strip l ≠ []) :
    ∃ cs c, strip l = cs ++ [c] ∧ pyIsSpace c = false := by
  have h2 : (stripStart l).reverse.dropWhile pyIsSpace ≠ [] := by
    intro hc
    apply h
    simp [strip, stripEnd_eq, hc]
  obtain ⟨c, cs, hcs, hc⟩ := head_dropWhile_not h2
  refine ⟨cs.reverse, c, ?_, hc⟩
  rw [strip, stripEnd_eq, hcs]
  simp

theorem stripStart_strip (l : List Char) : stripStart (strip l) = strip l := by
  by_cases h : strip l = []
  · simp [h, stripStart]
  · obtain ⟨c, cs, hcs, hc⟩ := strip_head_not_ws h
    rw [hcs]
    simp [stripStart, List.dropWhile_cons, hc]

theorem stripEnd_idem (l : List Char) : stripEnd (stripEnd l) = stripEnd l := by
  simp [stripEnd_eq, dropWhile_idem]

theorem strip_idem (l : List Char) : strip (strip l) = strip l := by
  conv_lhs => rw [strip, stripStart_strip]
  rw [show strip l = stripEnd (stripStart l) from rfl, stripEnd_idem]

theorem stripStart_ws_append {w s : List Char} (hw : ∀ c ∈ w, pyIsSpace c = true) :
    stripStart (w ++ s) = stripStart s := by
  induction w with
  | nil => rfl
  | cons a w ih =>
    simp only [List.cons_append, stripStart, List.dropWhile_cons, hw a (by simp), if_true]
    exact ih fun c hc => hw c (by simp [hc])

theorem strip_ws_append {w s : List Char} (hw : ∀ c ∈ w, pyIsSpace c = true) :
    strip (w ++ s) = strip s := by
  rw [strip, stripStart_ws_append hw, strip]

theorem strip_ne_nil_of_mem {l : List Char} {c : Char} (hm : c ∈ l)
    (hc : pyIsSpace c = false) : strip l ≠ [] := by
  intro h
  rw [strip_eq_nil_iff] at h
  rw [h c hm] at hc
  exact absurd hc (by simp)

/-! Lemmas about `hasDD`, `startsWithDD`, `truncAtDD`. -/

theorem hasDD_cons (c : Char) (l : List Char) :
    hasDD (c :: l) = ((c == '-') && headDash l || hasDD l) := by
  cases l with
  | nil => simp [hasDD, headDash]
  | cons b r => simp [hasDD, headDash]

theorem headDash_cons_append (c : Char) (a b : List Char) :
    headDash ((c :: a) ++ b) = headDash (c :: a) := by
  simp [headDash]

theorem lastDash_cons (c : Char) (a : List Char) :
    lastDash (c :: a) = if a = [] then c == '-' else lastDash a := by
  cases ha : a.reverse with
  | nil =>
    have : a = [] := by simpa using congrArg List.reverse ha
    simp [this, lastDash, headDash]
  | cons x xs =>
    have hane : a ≠ [] := by
      intro h
      rw [h] at ha
      simp at ha
    simp only [lastDash, List.reverse_cons, ha, hane, if_false]
    simp [headDash]

theorem hasDD_append (a b : List Char) :
    hasDD (a ++ b) = (hasDD a || hasDD b || (lastDash a && headDash b)) := by
  induction a with
  | nil => simp [hasDD, lastDash, headDash]
  | cons c a ih =>
    rw [List.cons_append, hasDD_cons, ih, hasDD_cons, lastDash_cons]
    cases a with
    | nil =>
      simp only [List.nil_append]
      cases hc : (c == '-') <;> cases hx : headDash b <;> cases hy : hasDD b <;>
        simp [hc, hx, hy, lastDash, headDash, hasDD]
    | cons d a' =>
      simp only [headDash_cons_append, if_neg (List.cons_ne_nil d a')]
      cases hc : (c == '-') <;> cases h1 : headDash (d :: a') <;>
        cases h2 : hasDD (d :: a') <;> cases h3 : hasDD b <;>
        cases h4 : lastDash (d :: a') <;> cases h5 : headDash b <;>
        simp [hc, h1, h2, h3, h4, h5]

theorem hasDD_append_false {a b : List Char} (h : hasDD (a ++ b) = false) :
    hasDD a = false ∧ hasDD b = false := by
  rw [hasDD_append] at h
  simp at h
  exact ⟨h.1.1, h.1.2⟩

theorem hasDD_infix {t u : List Char} (hi : t <:+: u) (h : hasDD u = false) :
    hasDD t = false := by
  rcases hi with ⟨s, r, rfl⟩
  have h1 := (hasDD_append_false (by simpa using h)).2
  exact (hasDD_append_false h1).1

theorem hasDD_strip {l : List Char} (h : hasDD l = false) : hasDD (strip l) = false :=
  hasDD_infix (strip_within l) h

theorem startsWithDD_hasDD {l : List Char} (h : startsWithDD l = true) :
    hasDD l = true := by
  cases l with
  | nil => simp [startsWithDD] at h
  | cons a t =>
    cases t with
    | nil => simp [startsWithDD] at h
    | cons b r =>
      by_cases ha : a = '-' <;> by_cases hb : b = '-' <;>
        simp [startsWithDD, ha, hb, hasDD] at h ⊢

theorem truncAtDD_front (l : List Char) : truncAtDD l <+: l := by
  induction l with
  | nil => simp [truncAtDD]
  | cons a t ih =>
    cases t with
    | nil => simp [truncAtDD]
    | cons b r =>
      rw [truncAtDD]
      by_cases h : (a == '-' && b == '-') = true
      · simp [h]
      · rw [if_neg h]
        exact (List.prefix_cons_inj a).mpr ih

theorem hasDD_truncAtDD (l : List Char) : hasDD (truncAtDD l) = false := by
  induction l with
  | nil => simp [truncAtDD, hasDD]
  | cons a t ih =>
    cases t with
    | nil => simp [truncAtDD, hasDD]
    | cons b r =>
      rw [truncAtDD]
      by_cases h : (a == '-' && b == '-') = true
      · simp [h, hasDD]
      · rw [if_neg h, hasDD_cons, ih]
        have hkey : (a == '-' && headDash (truncAtDD (b :: r))) = false := by
          by_cases ha : (a == '-') = true
          · have hb : (b == '-') = false := by
              cases hbv : (b == '-') with
              | false => rfl
              | true => exact absurd (by simp [ha, hbv]) h
            have hh : headDash (truncAtDD (b :: r)) = false := by
              cases r with
              | nil => simp [truncAtDD, headDash, hb]
              | cons d r' =>
                rw [truncAtDD]
                by_cases h2 : (b == '-' && d == '-') = true
                · simp [h2, headDash]
                · simp [if_neg h2, headDash, hb]
            simp [hh]
          · simp [Bool.eq_false_iff.mpr ha]
        simp [hkey]

/-! Lemmas about `splitLines` and `joinNL`. -/

theorem splitLines_ne_nil (s : List Char) : splitLines s ≠ [] := by
  cases s with
  | nil => simp [splitLines]
  | cons c r =>
    rw [splitLines]
    by_cases h : c = '\n'
    · simp [h]
    · rw [if_neg h]
      cases splitLines r <;> simp

theorem splitLines_cons_ne (c : Char) (r : List Char) (h : ¬c = '\n') :
    ∃ l ls, splitLines r = l :: ls ∧ splitLines (c :: r) = (c :: l) :: ls := by
  cases hr : splitLines r with
  | nil => exact absurd hr (splitLines_ne_nil r)
  | cons l ls =>
    refine ⟨l, ls, rfl, ?_⟩
    rw [splitLines, if_neg h, hr]

theorem mem_splitLines_no_nl {s : List Char} {l : List Char} (hm : l ∈ splitLines s) :
    '\n' ∉ l := by
  induction s generalizing l with
  | nil =>
    simp [splitLines] at hm
    simp [hm]
  | cons c r ih =>
    by_cases h : c = '\n'
    · subst h
      rw [splitLines, if_pos rfl] at hm
      rcases List.mem_cons.mp hm with rfl | hm
      · simp
      · exact ih hm
    · obtain ⟨l₀, ls, hr, hc⟩ := splitLines_cons_ne c r h
      rw [hc] at hm
      rcases List.mem_cons.mp hm with rfl | hm
      · intro hnl
        rcases List.mem_cons.mp hnl with hnl | hnl
        · exact h hnl.symm
        · exact ih (hr ▸ List.mem_cons_self l₀ ls) hnl
      · exact ih (hr ▸ List.mem_cons_of_mem l₀ hm)

theorem splitLines_no_nl {s : List Char} (h : '\n' ∉ s) : splitLines s = [s] := by
  induction s with
  | nil => rfl
  | cons c r ih =>
    have hc : ¬c = '\n' := fun hc => h (by simp [hc])
    have hr : splitLines r = [r] := ih fun hm => h (by simp [hm])
    obtain ⟨l, ls, hrls, hcons⟩ := splitLines_cons_ne c r hc
    rw [hrls] at hr
    simp at hr
    rw [hcons, hr.1, hr.2]

theorem joinNL_splitLines (s : List Char) : joinNL (splitLines s) = s := by
  induction s with
  | nil => rfl
  | cons c r ih =>
    by_cases h : c = '\n'
    · subst h
      rw [splitLines, if_pos rfl]
      cases hr : splitLines r with
      | nil => exact absurd hr (splitLines_ne_nil r)
      | cons l ls =>
        rw [joinNL]
        rw [hr] at ih
        simp [ih]
    · obtain ⟨l, ls, hr, hc⟩ := splitLines_cons_ne c r h
      rw [hc]
      rw [hr] at ih
      cases ls with
      | nil => simp [joinNL] at ih ⊢; simp [ih]
      | cons l2 ls' =>
        rw [joinNL] at ih ⊢
        simp [← ih]

theorem splitLines_cons_nl (r : List Char) : splitLines ('\n' :: r) = [] :: splitLines r := by
  rw [splitLines]
  simp

theorem splitLines_append (a b : List Char) :
    splitLines (a ++ '\n' :: b) = splitLines a ++ splitLines b := by
  induction a with
  | nil =>
    rw [List.nil_append, splitLines_cons_nl]
    rfl
  | cons c a' ih =>
    by_cases h : c = '\n'
    · subst h
      rw [List.cons_append, splitLines_cons_nl, ih, splitLines_cons_nl]
      rfl
    · obtain ⟨l, ls, ha, hc⟩ := splitLines_cons_ne c a' h
      have : splitLines (c :: (a' ++ '\n' :: b)) = (c :: l) :: (ls ++ splitLines b) := by
        obtain ⟨l2, ls2, ha2, hc2⟩ := splitLines_cons_ne c (a' ++ '\n' :: b) h
        rw [ih, ha] at ha2
        rw [hc2]
        have h1 : l2 = l := by
          cases ls <;> simp at ha2 <;> simp [ha2.1]
        have h2 : ls2 = ls ++ splitLines b := by
          cases ls with
          | nil => simp at ha2; simp [ha2.2]
          | cons x xs => simp at ha2; simp [ha2.2]
        rw [h1, h2]
      rw [List.cons_append, this, hc]
      simp

theorem splitLines_joinNL {ls : List (List Char)} (hne : ls ≠ [])
    (hnl : ∀ l ∈ ls, '\n' ∉ l) : splitLines (joinNL ls) = ls := by
  induction ls with
  | nil => exact absurd rfl hne
  | cons l ls ih =>
    cases ls with
    | nil =>
      rw [joinNL]
      exact splitLines_no_nl (hnl l (by simp))
    | cons l2 ls' =>
      rw [joinNL, splitLines_append, splitLines_no_nl (hnl l (by simp)),
        ih (by simp) fun x hx => hnl x (by simp [List.mem_cons.mp hx])]
      rfl

theorem takeWhile_all {p : Char → Bool} {l : List Char} (h : ∀ c ∈ l, p c = true) :
    l.takeWhile p = l := by
  induction l with
  | nil => rfl
  | cons a l ih =>
    rw [List.takeWhile_cons, if_pos (h a (by simp))]
    rw [ih fun c hc => h c (by simp [hc])]

theorem takeWhile_append_stop {p : Char → Bool} {a : List Char} (b : List Char) {x : Char}
    (hx : x ∈ a) (hpx : p x = false) :
    (a ++ b).takeWhile p = a.takeWhile p := by
  induction a with
  | nil => simp at hx
  | cons c a' ih =>
    rw [List.cons_append, List.takeWhile_cons, List.takeWhile_cons]
    by_cases hc : p c = true
    · rw [if_pos hc, if_pos hc]
      rcases List.mem_cons.mp hx with rfl | hx'
      · rw [hpx] at hc
        exact absurd hc (by simp)
      · rw [ih hx']
    · simp [hc]

theorem takeWhile_append_single {p : Char → Bool} {x : Char} (a : List Char)
    (hpx : p x = false) : (a ++ [x]).takeWhile p = a.takeWhile p := by
  induction a with
  | nil => simp [List.takeWhile_cons, hpx]
  | cons c a' ih =>
    rw [List.cons_append, List.takeWhile_cons, List.takeWhile_cons]
    by_cases hc : p c = true
    · rw [if_pos hc, if_pos hc, ih]
    · simp [hc]

theorem splitLines_head (s : List Char) :
    ∃ t, splitLines s = (s.takeWhile fun c => !(c == '\n')) :: t := by
  induction s with
  | nil => exact ⟨[], rfl⟩
  | cons c r ih =>
    by_cases h : c = '\n'
    · subst h
      rw [splitLines_cons_nl]
      exact ⟨splitLines r, by simp [List.takeWhile_cons]⟩
    · obtain ⟨l, ls, hr, hc⟩ := splitLines_cons_ne c r h
      obtain ⟨t, ht⟩ := ih
      rw [hr] at ht
      simp at ht
      refine ⟨ls, ?_⟩
      rw [hc, List.takeWhile_cons, if_pos (by simp [h]), ht.1]

theorem splitLines_single_no_nl {r l : List Char} (h : splitLines r = [l]) : '\n' ∉ r := by
  have hj := joinNL_splitLines r
  rw [h, joinNL] at hj
  intro hm
  have hl : l ∈ splitLines r := by
    rw [h]
    simp
  exact mem_splitLines_no_nl hl (by rw [hj]; exact hm)

theorem splitLines_getLast (s : List Char) :
    (splitLines s).getLastD [] = (s.reverse.takeWhile fun c => !(c == '\n')).reverse := by
  induction s with
  | nil => simp [splitLines]
  | cons c r ih =>
    by_cases h : c = '\n'
    · subst h
      rw [splitLines_cons_nl]
      have h1 : (([] : List Char) :: splitLines r).getLastD [] = (splitLines r).getLastD [] := by
        cases hr : splitLines r with
        | nil => exact absurd hr (splitLines_ne_nil r)
        | cons y ys => simp [List.getLastD_cons]
      rw [h1, ih, List.reverse_cons, takeWhile_append_single r.reverse (by simp)]
    · obtain ⟨l, ls, hr, hc⟩ := splitLines_cons_ne c r h
      rw [hc, List.reverse_cons]
      by_cases hnl : '\n' ∈ r
      · have hls : ls ≠ [] := by
          intro hl
          rw [hl] at hr
          exact splitLines_single_no_nl hr hnl
        have h1 : ((c :: l) :: ls).getLastD [] = (splitLines r).getLastD [] := by
          rw [hr]
          cases ls with
          | nil => exact absurd rfl hls
          | cons y ys => simp [List.getLastD_cons]
        rw [h1, ih, takeWhile_append_stop [c] (by simpa using hnl) (by simp)]
      · have hrr : splitLines r = [r] := splitLines_no_nl hnl
        rw [hrr] at hr
        simp at hr
        rw [show l = r from hr.1.symm, hr.2]
        have hall : ∀ x ∈ r.reverse ++ [c], (!(x == '\n')) = true := by
          intro x hx
          rcases List.mem_append.mp hx with hx | hx
          · simp at hx ⊢
            intro he
            exact hnl (he ▸ hx)
          · simp at hx
            simp [hx, h]
        rw [takeWhile_all hall]
        simp

/-! Lemmas about `glueLines` and interior lines. -/

theorem glueLines_cons {l : List Char} {ls ys : List (List Char)} (h : ls ≠ []) :
    glueLines (l :: ls) ys = l :: glueLines ls ys := by
  cases ys with
  | nil => rfl
  | cons y ys' =>
    rw [glueLines, glueLines]
    rw [List.dropLast_cons_of_ne_nil h]
    have h2 : (l :: ls).getLastD [] = ls.getLastD [] := by
      cases ls with
      | nil => exact absurd rfl h
      | cons x xs => simp [List.getLastD_cons]
    rw [h2]
    simp

theorem splitLines_append_gen (a b : List Char) :
    splitLines (a ++ b) = glueLines (splitLines a) (splitLines b) := by
  induction a with
  | nil =>
    cases hb : splitLines b with
    | nil => exact absurd hb (splitLines_ne_nil b)
    | cons y ys =>
      rw [List.nil_append, hb]
      simp [glueLines, splitLines]
  | cons c a' ih =>
    by_cases h : c = '\n'
    · subst h
      rw [List.cons_append, splitLines_cons_nl, ih, splitLines_cons_nl]
      exact (glueLines_cons (splitLines_ne_nil a')).symm
    · obtain ⟨l, ls, ha, hc⟩ := splitLines_cons_ne c a' h
      obtain ⟨l2, ls2, hab, hc2⟩ := splitLines_cons_ne c (a' ++ b) h
      rw [List.cons_append, hc2, hc]
      rw [ih, ha] at hab
      cases hsb : splitLines b with
      | nil => exact absurd hsb (splitLines_ne_nil b)
      | cons y ys =>
        rw [hsb] at hab
        cases ls with
        | nil =>
          rw [glueLines] at hab
          simp at hab
          rw [glueLines]
          simp
          constructor
          · rw [← hab.1]
          · rw [hab.2]
        | cons x xs =>
          rw [glueLines_cons (by simp)] at hab
          rw [glueLines_cons (by simp)]
          simp at hab
          rw [← hab.1, ← hab.2]

theorem mem_glueLines_tail {xs ys : List (List Char)} {l : List Char} (h : l ∈ ys.tail) :
    l ∈ glueLines xs ys := by
  cases ys with
  | nil => simp at h
  | cons y ys' =>
    rw [glueLines]
    simp at h
    simp [h]

theorem mem_glueLines_dropLast {xs ys : List (List Char)} {l : List Char}
    (h : l ∈ xs.dropLast) : l ∈ glueLines xs ys := by
  cases ys with
  | nil => exact (List.dropLast_sublist xs).subset h
  | cons y ys' =>
    rw [glueLines]
    simp [h]

theorem mem_trichotomy {xs : List (List Char)} {l : List Char} (h : l ∈ xs) :
    l = xs.headD [] ∨ l = xs.getLastD [] ∨ l ∈ midLines xs := by
  cases xs with
  | nil => simp at h
  | cons x xs' =>
    rcases List.mem_cons.mp h with rfl | h'
    · left
      rfl
    · have hne : xs' ≠ [] := by
        intro he
        rw [he] at h'
        simp at h'
      have hsplit := List.dropLast_append_getLast hne
      rw [← hsplit] at h'
      rcases List.mem_append.mp h' with hd | hg
      · right
        right
        rw [midLines]
        simpa using hd
      · right
        left
        simp at hg
        rw [hg]
        have hlast : (x :: xs').getLastD [] = xs'.getLast hne := by
          rw [List.getLastD_cons, List.getLastD_eq_getLast?, List.getLast?_eq_getLast xs' hne]
          simp
        rw [hlast]

theorem mem_mid_of_sub {u v : List Char} (h : u <:+: v) {l : List Char}
    (hm : l ∈ midLines (splitLines u)) : l ∈ splitLines v := by
  rcases h with ⟨p, q, hv⟩
  subst hv
  rw [show p ++ u ++ q = (p ++ u) ++ q from by simp, splitLines_append_gen (p ++ u) q,
    splitLines_append_gen p u]
  apply mem_glueLines_dropLast
  cases hu : splitLines u with
  | nil => exact absurd hu (splitLines_ne_nil u)
  | cons y ys =>
    rw [hu] at hm
    rw [midLines] at hm
    simp at hm
    have hys : ys ≠ [] := by
      intro he
      rw [he] at hm
      simp at hm
    cases hp : splitLines p with
    | nil => exact absurd hp (splitLines_ne_nil p)
    | cons z zs =>
      rw [glueLines]
      rw [List.dropLast_append]
      simp only [List.isEmpty_cons, if_false]
      apply List.mem_append_right
      rw [List.dropLast_cons_of_ne_nil hys]
      exact List.mem_cons_of_mem _ hm

/-! Step equations for the scanners, oriented for rewriting a single call. -/

theorem qscan_cons_none (c : Char) (rest : List Char) :
    qscan (c :: rest) none =
      if c = '\'' ∨ c = '"' then qscan rest (some c) else qscan rest none := by
  conv_lhs => rw [qscan]

theorem qscan_pair (c c2 : Char) (r : List Char) (q : Char) :
    qscan (c :: c2 :: r) (some q) =
      if c = q then (if c2 = q then qscan r (some q) else qscan (c2 :: r) none)
      else qscan (c2 :: r) (some q) := by
  conv_lhs => rw [qscan]

theorem qscan_one (c q : Char) : qscan [c] (some q) = if c = q then none else some q := by
  conv_lhs => rw [qscan]

theorem noOutSemi_cons_none (c : Char) (rest : List Char) :
    noOutSemi (c :: rest) none =
      if c = ';' then false
      else if c = '\'' ∨ c = '"' then noOutSemi rest (some c)
      else noOutSemi rest none := by
  conv_lhs => rw [noOutSemi]

theorem noOutSemi_pair (c c2 : Char) (r : List Char) (q : Char) :
    noOutSemi (c :: c2 :: r) (some q) =
      if c = q then (if c2 = q then noOutSemi r (some q) else noOutSemi (c2 :: r) none)
      else noOutSemi (c2 :: r) (some q) := by
  conv_lhs => rw [noOutSemi]

theorem noOutSemi_one (c q : Char) : noOutSemi [c] (some q) = true := rfl

theorem scanStmts_nil (st : Option Char) (buf : List Char) (acc : List (List Char)) :
    scanStmts [] st buf acc = acc ++ emitStmt buf := by
  cases st <;> rfl

theorem scanStmts_cons_none (c : Char) (rest buf : List Char) (acc : List (List Char)) :
    scanStmts (c :: rest) none buf acc =
      if c = '\'' ∨ c = '"' then scanStmts rest (some c) (buf ++ [c]) acc
      else if c = ';' then scanStmts rest none [] (acc ++ emitStmt buf)
      else scanStmts rest none (buf ++ [c]) acc := by
  conv_lhs => rw [scanStmts]

theorem scanStmts_pair (c c2 : Char) (r : List Char) (q : Char) (buf : List Char)
    (acc : List (List Char)) :
    scanStmts (c :: c2 :: r) (some q) buf acc =
      if c = q then
        (if c2 = q then scanStmts r (some q) (buf ++ [c, c2]) acc
         else scanStmts (c2 :: r) none (buf ++ [c]) acc)
      else scanStmts (c2 :: r) (some q) (buf ++ [c]) acc := by
  conv_lhs => rw [scanStmts]

theorem scanStmts_one (c q : Char) (buf : List Char) (acc : List (List Char)) :
    scanStmts [c] (some q) buf acc = acc ++ emitStmt (buf ++ [c]) := by
  conv_lhs => rw [scanStmts]

/-! Lemmas about the quote state of the statement scan. -/

theorem ws_not_quote {c : Char} (h : pyIsSpace c = true) :
    ¬(c = '\'' ∨ c = '"') := by
  intro hc
  rcases hc with rfl | rfl <;> simp [pyIsSpace] at h

theorem ws_not_semi {c : Char} (h : pyIsSpace c = true) : c ≠ ';' := by
  intro hc
  subst hc
  simp [pyIsSpace] at h

theorem okState_not_ws {q : Char} (hq : okState (some q)) : pyIsSpace q = false := by
  rcases hq with h | h | h <;> simp at h <;> subst h <;> rfl

theorem qscan_ws {w : List Char} (hw : ∀ c ∈ w, pyIsSpace c = true) {st : Option Char}
    (hst : okState st) : qscan w st = st ∧ noOutSemi w st = true := by
  induction w generalizing st with
  | nil => exact ⟨rfl, rfl⟩
  | cons c w' ih =>
    have hc := hw c (by simp)
    have hw' : ∀ x ∈ w', pyIsSpace x = true := fun x hx => hw x (by simp [hx])
    cases st with
    | none =>
      have h1 : ¬(c = '\'' ∨ c = '"') := ws_not_quote hc
      have h2 : c ≠ ';' := ws_not_semi hc
      constructor
      · rw [qscan, if_neg h1]
        exact (ih hw' hst).1
      · rw [noOutSemi, if_neg h2, if_neg h1]
        exact (ih hw' hst).2
    | some q =>
      have hcq : ¬c = q := by
        intro he
        rw [he, okState_not_ws hst] at hc
        exact absurd hc (by simp)
      cases w' with
      | nil =>
        constructor
        · rw [qscan, if_neg hcq]
        · rfl
      | cons c2 w'' =>
        constructor
        · rw [qscan, if_neg hcq]
          exact (ih hw' hst).1
        · rw [noOutSemi, if_neg hcq]
          exact (ih hw' hst).2

theorem qscan_ws_append {w x : List Char} (hw : ∀ c ∈ w, pyIsSpace c = true) :
    qscan (w ++ x) none = qscan x none ∧ noOutSemi (w ++ x) none = noOutSemi x none := by
  induction w with
  | nil => exact ⟨rfl, rfl⟩
  | cons c w' ih =>
    have hc := hw c (by simp)
    have hw' : ∀ y ∈ w', pyIsSpace y = true := fun y hy => hw y (by simp [hy])
    have h1 : ¬(c = '\'' ∨ c = '"') := ws_not_quote hc
    have h2 : c ≠ ';' := ws_not_semi hc
    constructor
    · rw [List.cons_append, qscan, if_neg h1]
      exact (ih hw').1
    · rw [List.cons_append, noOutSemi, if_neg h2, if_neg h1]
      exact (ih hw').2

theorem okState_some {c : Char} (h : c = '\'' ∨ c = '"') : okState (some c) := by
  rcases h with rfl | rfl
  · exact Or.inr (Or.inl rfl)
  · exact Or.inr (Or.inr rfl)

theorem qscan_ok_aux :
    ∀ n (a : List Char), a.length ≤ n → ∀ st, okState st → okState (qscan a st) := by
  intro n
  induction n with
  | zero =>
    intro a ha st hst
    have h0 : a = [] := by
      cases a with
      | nil => rfl
      | cons c r => simp at ha
    subst h0
    exact hst
  | succ n ih =>
    intro a ha st hst
    cases a with
    | nil => exact hst
    | cons c a' =>
      have ha' : a'.length ≤ n := by
        simp at ha
        omega
      cases st with
      | none =>
        by_cases h1 : c = '\'' ∨ c = '"'
        · rw [qscan, if_pos h1]
          exact ih a' ha' (some c) (okState_some h1)
        · rw [qscan, if_neg h1]
          exact ih a' ha' none (Or.inl rfl)
      | some q =>
        cases a' with
        | nil =>
          rw [qscan]
          by_cases hcq : c = q
          · rw [if_pos hcq]
            exact Or.inl rfl
          · rw [if_neg hcq]
            exact hst
        | cons c2 a'' =>
          have ha'' : a''.length ≤ n := by
            simp at ha
            omega
          have ha2 : (c2 :: a'').length ≤ n := by
            simp at ha ⊢
            omega
          by_cases hcq : c = q
          · by_cases h2 : c2 = q
            · rw [qscan, if_pos hcq, if_pos h2]
              exact ih a'' ha'' (some q) hst
            · rw [qscan, if_pos hcq, if_neg h2]
              exact ih (c2 :: a'') ha2 none (Or.inl rfl)
          · rw [qscan, if_neg hcq]
            exact ih (c2 :: a'') ha2 (some q) hst

theorem qscan_ok (a : List Char) {st : Option Char} (hst : okState st) :
    okState (qscan a st) :=
  qscan_ok_aux a.length a le_rfl st hst

theorem okState_quote {q : Char} (hst : okState (some q)) : q = '\'' ∨ q = '"' := by
  rcases hst with h | h | h
  · exact absurd h (by simp)
  · exact Or.inl (by injection h)
  · exact Or.inr (by injection h)

theorem qscan_close_step {q c : Char} (hq : q = '\'' ∨ q = '"') (hcq : c = q) {b : List Char}
    (hb : ∀ x, b.head? = some x → ¬(x = '\'' ∨ x = '"')) :
    qscan (c :: b) (some q) = qscan b none ∧
    noOutSemi (c :: b) (some q) = noOutSemi b none := by
  cases b with
  | nil =>
    constructor
    · rw [qscan_one, if_pos hcq]
      rfl
    · rfl
  | cons c2 b' =>
    have hc2 : ¬c2 = q := fun he => hb c2 rfl (by rw [he]; exact hq)
    constructor
    · rw [qscan_pair, if_pos hcq, if_neg hc2]
    · rw [noOutSemi_pair, if_pos hcq, if_neg hc2]

theorem qscan_content_step {q c : Char} (hcq : ¬c = q) (b : List Char) :
    qscan (c :: b) (some q) = qscan b (some q) ∧
    noOutSemi (c :: b) (some q) = noOutSemi b (some q) := by
  cases b with
  | nil =>
    constructor
    · rw [qscan_one, if_neg hcq]
      rfl
    · rfl
  | cons c2 b' =>
    constructor
    · rw [qscan_pair, if_neg hcq]
    · rw [noOutSemi_pair, if_neg hcq]

theorem qscan_append_aux (b : List Char)
    (hb : ∀ c, b.head? = some c → ¬(c = '\'' ∨ c = '"')) :
    ∀ n (a : List Char), a.length ≤ n → ∀ st, okState st →
      qscan (a ++ b) st = qscan b (qscan a st) ∧
      noOutSemi (a ++ b) st = (noOutSemi a st && noOutSemi b (qscan a st)) := by
  intro n
  induction n with
  | zero =>
    intro a ha st hst
    have h0 : a = [] := by
      cases a with
      | nil => rfl
      | cons c r => simp at ha
    subst h0
    simp [qscan, noOutSemi]
  | succ n ih =>
    intro a ha st hst
    cases a with
    | nil => simp [qscan, noOutSemi]
    | cons c a' =>
      have ha' : a'.length ≤ n := by
        simp at ha
        omega
      cases st with
      | none =>
        by_cases h1 : c = '\'' ∨ c = '"'
        · have hr := ih a' ha' (some c) (okState_some h1)
          constructor
          · rw [List.cons_append, qscan, if_pos h1, qscan, if_pos h1]
            exact hr.1
          · have hcs : c ≠ ';' := by
              rcases h1 with rfl | rfl <;> simp
            rw [List.cons_append, noOutSemi, if_neg hcs, if_pos h1,
              noOutSemi, if_neg hcs, if_pos h1, qscan, if_pos h1]
            exact hr.2
        · by_cases h2 : c = ';'
          · have hr := ih a' ha' none (Or.inl rfl)
            constructor
            · rw [List.cons_append, qscan, if_neg h1, qscan, if_neg h1]
              exact hr.1
            · rw [List.cons_append, noOutSemi, if_pos h2, noOutSemi, if_pos h2]
              simp
          · have hr := ih a' ha' none (Or.inl rfl)
            constructor
            · rw [List.cons_append, qscan, if_neg h1, qscan, if_neg h1]
              exact hr.1
            · rw [List.cons_append, noOutSemi, if_neg h2, if_neg h1,
                noOutSemi, if_neg h2, if_neg h1, qscan, if_neg h1]
              exact hr.2
      | some q =>
        cases a' with
        | nil =>
          by_cases hcq : c = q
          · have hstep := qscan_close_step (okState_quote hst) hcq hb
            have hq1 : qscan [c] (some q) = none := by
              rw [qscan_one, if_pos hcq]
            have hn1 : noOutSemi [c] (some q) = true := rfl
            constructor
            · rw [List.singleton_append, hstep.1, hq1]
            · rw [List.singleton_append, hstep.2, hq1, hn1]
              simp
          · have hstep := qscan_content_step hcq b
            have hq1 : qscan [c] (some q) = some q := by
              rw [qscan_one, if_neg hcq]
            have hn1 : noOutSemi [c] (some q) = true := rfl
            constructor
            · rw [List.singleton_append, hstep.1, hq1]
            · rw [List.singleton_append, hstep.2, hq1, hn1]
              simp
        | cons c2 a'' =>
          have ha'' : a''.length ≤ n := by
            simp at ha
            omega
          have ha2 : (c2 :: a'').length ≤ n := by
            simp at ha ⊢
            omega
          have hshape : (c :: c2 :: a'') ++ b = c :: c2 :: (a'' ++ b) := by simp
          by_cases hcq : c = q
          · by_cases h2 : c2 = q
            · have hr := ih a'' ha'' (some q) hst
              have e1 : qscan (c :: c2 :: (a'' ++ b)) (some q) = qscan (a'' ++ b) (some q) := by
                rw [qscan_pair, if_pos hcq, if_pos h2]
              have e2 : qscan (c :: c2 :: a'') (some q) = qscan a'' (some q) := by
                rw [qscan_pair, if_pos hcq, if_pos h2]
              have e3 : noOutSemi (c :: c2 :: (a'' ++ b)) (some q) = noOutSemi (a'' ++ b) (some q) := by
                rw [noOutSemi_pair, if_pos hcq, if_pos h2]
              have e4 : noOutSemi (c :: c2 :: a'') (some q) = noOutSemi a'' (some q) := by
                rw [noOutSemi_pair, if_pos hcq, if_pos h2]
              exact ⟨by rw [hshape, e1, e2, hr.1], by rw [hshape, e3, e4, e2, hr.2]⟩
            · have hr := ih (c2 :: a'') ha2 none (Or.inl rfl)
              have e1 : qscan (c :: c2 :: (a'' ++ b)) (some q) = qscan ((c2 :: a'') ++ b) none := by
                rw [qscan_pair, if_pos hcq, if_neg h2]
                rfl
              have e2 : qscan (c :: c2 :: a'') (some q) = qscan (c2 :: a'') none := by
                rw [qscan_pair, if_pos hcq, if_neg h2]
              have e3 : noOutSemi (c :: c2 :: (a'' ++ b)) (some q) = noOutSemi ((c2 :: a'') ++ b) none := by
                rw [noOutSemi_pair, if_pos hcq, if_neg h2]
                rfl
              have e4 : noOutSemi (c :: c2 :: a'') (some q) = noOutSemi (c2 :: a'') none := by
                rw [noOutSemi_pair, if_pos hcq, if_neg h2]
              exact ⟨by rw [hshape, e1, e2, hr.1], by rw [hshape, e3, e4, e2, hr.2]⟩
          · have hr := ih (c2 :: a'') ha2 (some q) hst
            have e1 : qscan (c :: c2 :: (a'' ++ b)) (some q) = qscan ((c2 :: a'') ++ b) (some q) := by
              rw [qscan_pair, if_neg hcq]
              rfl
            have e2 : qscan (c :: c2 :: a'') (some q) = qscan (c2 :: a'') (some q) := by
              rw [qscan_pair, if_neg hcq]
            have e3 : noOutSemi (c :: c2 :: (a'' ++ b)) (some q) = noOutSemi ((c2 :: a'') ++ b) (some q) := by
              rw [noOutSemi_pair, if_neg hcq]
              rfl
            have e4 : noOutSemi (c :: c2 :: a'') (some q) = noOutSemi (c2 :: a'') (some q) := by
              rw [noOutSemi_pair, if_neg hcq]
            exact ⟨by rw [hshape, e1, e2, hr.1], by rw [hshape, e3, e4, e2, hr.2]⟩

theorem qscan_append {a b : List Char}
    (hb : ∀ c, b.head? = some c → ¬(c = '\'' ∨ c = '"')) {st : Option Char}
    (hst : okState st) :
    qscan (a ++ b) st = qscan b (qscan a st) ∧
    noOutSemi (a ++ b) st = (noOutSemi a st && noOutSemi b (qscan a st)) :=
  qscan_append_aux b hb a.length a le_rfl st hst

theorem strip_scan_transfer (m : List Char) :
    (noOutSemi m none = true → noOutSemi (strip m) none = true) ∧
    (qscan m none = none → qscan (strip m) none = none) := by
  have hwL : ∀ c ∈ m.takeWhile pyIsSpace, pyIsSpace c = true := fun c hc => mem_takeWhile_ws hc
  have hqL := qscan_ws_append (x := stripStart m) hwL
  have hdL := stripStart_decomp m
  have hwR : ∀ c ∈ ((stripStart m).reverse.takeWhile pyIsSpace).reverse, pyIsSpace c = true := by
    intro c hc
    exact mem_takeWhile_ws (by simpa using hc)
  have hb : ∀ c, (((stripStart m).reverse.takeWhile pyIsSpace).reverse).head? = some c →
      ¬(c = '\'' ∨ c = '"') := by
    intro c hc
    apply ws_not_quote
    apply hwR
    cases hW : ((stripStart m).reverse.takeWhile pyIsSpace).reverse with
    | nil =>
      rw [hW] at hc
      simp at hc
    | cons x xs =>
      rw [hW] at hc
      simp at hc
      rw [← hc]
      simp
  have hdR : stripStart m = strip m ++ ((stripStart m).reverse.takeWhile pyIsSpace).reverse :=
    stripEnd_decomp (stripStart m)
  have happ := qscan_append (a := strip m) hb (Or.inl rfl)
  have h1 : qscan m none = qscan (stripStart m) none := by
    conv_lhs => rw [hdL]
    exact hqL.1
  have h2 : noOutSemi m none = noOutSemi (stripStart m) none := by
    conv_lhs => rw [hdL]
    exact hqL.2
  have h3 : qscan (stripStart m) none =
      qscan (((stripStart m).reverse.takeWhile pyIsSpace).reverse) (qscan (strip m) none) := by
    conv_lhs => rw [hdR]
    exact happ.1
  have h4 : noOutSemi (stripStart m) none =
      (noOutSemi (strip m) none &&
        noOutSemi (((stripStart m).reverse.takeWhile pyIsSpace).reverse) (qscan (strip m) none)) := by
    conv_lhs => rw [hdR]
    exact happ.2
  constructor
  · intro h
    rw [h2, h4] at h
    exact (Bool.and_eq_true_iff.mp h).1
  · intro h
    rw [h1, h3] at h
    have hok : okState (qscan (strip m) none) := qscan_ok (strip m) (Or.inl rfl)
    rw [(qscan_ws hwR hok).1] at h
    exact h

theorem chunk_aux : ∀ n (cs : List Char), cs.length ≤ n → ∀ st, okState st →
    noOutSemi cs st = true ∨
    ∃ a b, cs = a ++ ';' :: b ∧ noOutSemi a st = true ∧ qscan a st = none := by
  intro n
  induction n with
  | zero =>
    intro cs hl st _
    have h0 : cs = [] := by
      cases cs with
      | nil => rfl
      | cons c r => simp at hl
    subst h0
    exact Or.inl rfl
  | succ n ih =>
    intro cs hl st hst
    cases cs with
    | nil => exact Or.inl rfl
    | cons c a' =>
      have hl' : a'.length ≤ n := by
        simp at hl
        omega
      cases st with
      | none =>
        by_cases hsemi : c = ';'
        · subst hsemi
          exact Or.inr ⟨[], a', rfl, rfl, rfl⟩
        · by_cases hq : c = '\'' ∨ c = '"'
          · rcases ih a' hl' (some c) (okState_some hq) with h | ⟨a2, b, hab, hn, hq2⟩
            · left
              rw [noOutSemi_cons_none, if_neg hsemi, if_pos hq]
              exact h
            · refine Or.inr ⟨c :: a2, b, by rw [hab]; rfl, ?_, ?_⟩
              · rw [noOutSemi_cons_none, if_neg hsemi, if_pos hq]
                exact hn
              · rw [qscan_cons_none, if_pos hq]
                exact hq2
          · rcases ih a' hl' none (Or.inl rfl) with h | ⟨a2, b, hab, hn, hq2⟩
            · left
              rw [noOutSemi_cons_none, if_neg hsemi, if_neg hq]
              exact h
            · refine Or.inr ⟨c :: a2, b, by rw [hab]; rfl, ?_, ?_⟩
              · rw [noOutSemi_cons_none, if_neg hsemi, if_neg hq]
                exact hn
              · rw [qscan_cons_none, if_neg hq]
                exact hq2
      | some q =>
        cases a' with
        | nil => exact Or.inl rfl
        | cons c2 a'' =>
          have hl'' : a''.length ≤ n := by
            simp at hl
            omega
          have hl2 : (c2 :: a'').length ≤ n := by
            simp at hl ⊢
            omega
          by_cases hcq : c = q
          · by_cases h2 : c2 = q
            · rcases ih a'' hl'' (some q) hst with h | ⟨a2, b, hab, hn, hq2⟩
              · left
                rw [noOutSemi_pair, if_pos hcq, if_pos h2]
                exact h
              · refine Or.inr ⟨c :: c2 :: a2, b, by rw [hab]; rfl, ?_, ?_⟩
                · rw [noOutSemi_pair, if_pos hcq, if_pos h2]
                  exact hn
                · rw [qscan_pair, if_pos hcq, if_pos h2]
                  exact hq2
            · rcases ih (c2 :: a'') hl2 none (Or.inl rfl) with h | ⟨a2, b, hab, hn, hq2⟩
              · left
                rw [noOutSemi_pair, if_pos hcq, if_neg h2]
                exact h
              · refine Or.inr ⟨c :: a2, b, by rw [show (c :: a2) ++ ';' :: b = c :: (a2 ++ ';' :: b) from rfl, ← hab], ?_, ?_⟩
                · cases a2 with
                  | nil => rfl
                  | cons x a3 =>
                    have hx : x = c2 := by
                      simp at hab
                      exact hab.1.symm
                    rw [hx] at hn ⊢
                    rw [noOutSemi_pair, if_pos hcq, if_neg h2]
                    exact hn
                · cases a2 with
                  | nil =>
                    rw [qscan_one, if_pos hcq]
                  | cons x a3 =>
                    have hx : x = c2 := by
                      simp at hab
                      exact hab.1.symm
                    rw [hx] at hq2 ⊢
                    rw [qscan_pair, if_pos hcq, if_neg h2]
                    exact hq2
          · rcases ih (c2 :: a'') hl2 (some q) hst with h | ⟨a2, b, hab, hn, hq2⟩
            · left
              rw [noOutSemi_pair, if_neg hcq]
              exact h
            · cases a2 with
              | nil => exact absurd hq2 (by simp [qscan])
              | cons x a3 =>
                have hx : x = c2 := by
                  simp at hab
                  exact hab.1.symm
                rw [hx] at hn hq2 hab
                refine Or.inr ⟨c :: c2 :: a3, b, by rw [show (c :: c2 :: a3) ++ ';' :: b = c :: ((c2 :: a3) ++ ';' :: b) from rfl, ← hab], ?_, ?_⟩
                · rw [noOutSemi_pair, if_neg hcq]
                  exact hn
                · rw [qscan_pair, if_neg hcq]
                  exact hq2

theorem scan_through_aux : ∀ n (s : List Char), s.length ≤ n → ∀ st, okState st →
    noOutSemi s st = true → ∀ (tail buf : List Char) (acc : List (List Char)),
    scanStmts (s ++ ';' :: tail) st buf acc =
      scanStmts (';' :: tail) (qscan s st) (buf ++ s) acc := by
  intro n
  induction n with
  | zero =>
    intro s hl st _ _ tail buf acc
    have h0 : s = [] := by
      cases s with
      | nil => rfl
      | cons c r => simp at hl
    subst h0
    simp [qscan]
  | succ n ih =>
    intro s hl st hst hns tail buf acc
    cases s with
    | nil => simp [qscan]
    | cons c a' =>
      have hl' : a'.length ≤ n := by
        simp at hl
        omega
      cases st with
      | none =>
        rw [noOutSemi_cons_none] at hns
        by_cases hsemi : c = ';'
        · rw [if_pos hsemi] at hns
          exact absurd hns (by simp)
        · rw [if_neg hsemi] at hns
          by_cases hq : c = '\'' ∨ c = '"'
          · rw [if_pos hq] at hns
            rw [show (c :: a') ++ ';' :: tail = c :: (a' ++ ';' :: tail) from rfl,
              scanStmts_cons_none, if_pos hq,
              ih a' hl' (some c) (okState_some hq) hns tail (buf ++ [c]) acc,
              qscan_cons_none, if_pos hq]
            simp
          · rw [if_neg hq] at hns
            rw [show (c :: a') ++ ';' :: tail = c :: (a' ++ ';' :: tail) from rfl,
              scanStmts_cons_none, if_neg hq, if_neg hsemi,
              ih a' hl' none (Or.inl rfl) hns tail (buf ++ [c]) acc,
              qscan_cons_none, if_neg hq]
            simp
      | some q =>
        cases a' with
        | nil =>
          by_cases hcq : c = q
          · have hsq : ¬ ';' = q := by
              rcases okState_quote hst with rfl | rfl <;> simp
            rw [show ([c] : List Char) ++ ';' :: tail = c :: ';' :: tail from rfl,
              scanStmts_pair, if_pos hcq, if_neg hsq, qscan_one, if_pos hcq]
          · rw [show ([c] : List Char) ++ ';' :: tail = c :: ';' :: tail from rfl,
              scanStmts_pair, if_neg hcq, qscan_one, if_neg hcq]
        | cons c2 a'' =>
          have hl'' : a''.length ≤ n := by
            simp at hl
            omega
          have hl2 : (c2 :: a'').length ≤ n := by
            simp at hl ⊢
            omega
          rw [noOutSemi_pair] at hns
          by_cases hcq : c = q
          · rw [if_pos hcq] at hns
            by_cases h2 : c2 = q
            · rw [if_pos h2] at hns
              rw [show (c :: c2 :: a'') ++ ';' :: tail = c :: c2 :: (a'' ++ ';' :: tail) from rfl,
                scanStmts_pair, if_pos hcq, if_pos h2,
                ih a'' hl'' (some q) hst hns tail (buf ++ [c, c2]) acc,
                qscan_pair, if_pos hcq, if_pos h2]
              simp
            · rw [if_neg h2] at hns
              rw [show (c :: c2 :: a'') ++ ';' :: tail = c :: c2 :: (a'' ++ ';' :: tail) from rfl,
                scanStmts_pair, if_pos hcq, if_neg h2,
                show c2 :: (a'' ++ ';' :: tail) = (c2 :: a'') ++ ';' :: tail from rfl,
                ih (c2 :: a'') hl2 none (Or.inl rfl) hns tail (buf ++ [c]) acc,
                qscan_pair, if_pos hcq, if_neg h2]
              simp
          · rw [if_neg hcq] at hns
            rw [show (c :: c2 :: a'') ++ ';' :: tail = c :: c2 :: (a'' ++ ';' :: tail) from rfl,
              scanStmts_pair, if_neg hcq,
              show c2 :: (a'' ++ ';' :: tail) = (c2 :: a'') ++ ';' :: tail from rfl,
              ih (c2 :: a'') hl2 (some q) hst hns tail (buf ++ [c]) acc,
              qscan_pair, if_neg hcq]
            simp

theorem scan_end_aux : ∀ n (s : List Char), s.length ≤ n → ∀ st,
    noOutSemi s st = true → ∀ (buf : List Char) (acc : List (List Char)),
    scanStmts s st buf acc = acc ++ emitStmt (buf ++ s) := by
  intro n
  induction n with
  | zero =>
    intro s hl st _ buf acc
    have h0 : s = [] := by
      cases s with
      | nil => rfl
      | cons c r => simp at hl
    subst h0
    rw [scanStmts_nil]
    simp
  | succ n ih =>
    intro s hl st hns buf acc
    cases s with
    | nil =>
      rw [scanStmts_nil]
      simp
    | cons c a' =>
      have hl' : a'.length ≤ n := by
        simp at hl
        omega
      cases st with
      | none =>
        rw [noOutSemi_cons_none] at hns
        by_cases hsemi : c = ';'
        · rw [if_pos hsemi] at hns
          exact absurd hns (by simp)
        · rw [if_neg hsemi] at hns
          by_cases hq : c = '\'' ∨ c = '"'
          · rw [if_pos hq] at hns
            rw [scanStmts_cons_none, if_pos hq, ih a' hl' (some c) hns (buf ++ [c]) acc]
            simp
          · rw [if_neg hq] at hns
            rw [scanStmts_cons_none, if_neg hq, if_neg hsemi,
              ih a' hl' none hns (buf ++ [c]) acc]
            simp
      | some q =>
        cases a' with
        | nil =>
          rw [scanStmts_one]
        | cons c2 a'' =>
          have hl'' : a''.length ≤ n := by
            simp at hl
            omega
          have hl2 : (c2 :: a'').length ≤ n := by
            simp at hl ⊢
            omega
          rw [noOutSemi_pair] at hns
          by_cases hcq : c = q
          · rw [if_pos hcq] at hns
            by_cases h2 : c2 = q
            · rw [if_pos h2] at hns
              rw [scanStmts_pair, if_pos hcq, if_pos h2,
                ih a'' hl'' (some q) hns (buf ++ [c, c2]) acc]
              simp
            · rw [if_neg h2] at hns
              rw [scanStmts_pair, if_pos hcq, if_neg h2,
                ih (c2 :: a'') hl2 none hns (buf ++ [c]) acc]
              simp
          · rw [if_neg hcq] at hns
            rw [scanStmts_pair, if_neg hcq,
              ih (c2 :: a'') hl2 (some q) hns (buf ++ [c]) acc]
            simp

theorem scanStmts_acc_aux : ∀ n (cs : List Char), cs.length ≤ n → ∀ st buf acc,
    scanStmts cs st buf acc = acc ++ scanStmts cs st buf [] := by
  intro n
  induction n with
  | zero =>
    intro cs hl st buf acc
    have h0 : cs = [] := by
      cases cs with
      | nil => rfl
      | cons c r => simp at hl
    subst h0
    rw [scanStmts_nil, scanStmts_nil]
    simp
  | succ n ih =>
    intro cs hl st buf acc
    cases cs with
    | nil =>
      rw [scanStmts_nil, scanStmts_nil]
      simp
    | cons c a' =>
      have hl' : a'.length ≤ n := by
        simp at hl
        omega
      cases st with
      | none =>
        by_cases hq : c = '\'' ∨ c = '"'
        · rw [scanStmts_cons_none, if_pos hq, scanStmts_cons_none, if_pos hq,
            ih a' hl' (some c) (buf ++ [c]) acc]
        · by_cases hsemi : c = ';'
          · rw [scanStmts_cons_none, if_neg hq, if_pos hsemi,
              scanStmts_cons_none, if_neg hq, if_pos hsemi,
              ih a' hl' none [] (acc ++ emitStmt buf),
              ih a' hl' none [] ([] ++ emitStmt buf)]
            simp
          · rw [scanStmts_cons_none, if_neg hq, if_neg hsemi,
              scanStmts_cons_none, if_neg hq, if_neg hsemi,
              ih a' hl' none (buf ++ [c]) acc]
      | some q =>
        cases a' with
        | nil =>
          rw [scanStmts_one, scanStmts_one]
          simp
        | cons c2 a'' =>
          have hl'' : a''.length ≤ n := by
            simp at hl
            omega
          have hl2 : (c2 :: a'').length ≤ n := by
            simp at hl ⊢
            omega
          by_cases hcq : c = q
          · by_cases h2 : c2 = q
            · rw [scanStmts_pair, if_pos hcq, if_pos h2, scanStmts_pair, if_pos hcq, if_pos h2,
                ih a'' hl'' (some q) (buf ++ [c, c2]) acc]
            · rw [scanStmts_pair, if_pos hcq, if_neg h2, scanStmts_pair, if_pos hcq, if_neg h2,
                ih (c2 :: a'') hl2 none (buf ++ [c]) acc]
          · rw [scanStmts_pair, if_neg hcq, scanStmts_pair, if_neg hcq,
              ih (c2 :: a'') hl2 (some q) (buf ++ [c]) acc]

theorem scanStmts_acc (cs : List Char) (st : Option Char) (buf : List Char)
    (acc : List (List Char)) :
    scanStmts cs st buf acc = acc ++ scanStmts cs st buf [] :=
  scanStmts_acc_aux cs.length cs le_rfl st buf acc

theorem mem_emitStmt {s buf : List Char} (h : s ∈ emitStmt buf) :
    s = strip buf ∧ strip buf ≠ [] := by
  rw [emitStmt] at h
  by_cases hb : strip buf = []
  · rw [if_pos hb] at h
    simp at h
  · rw [if_neg hb] at h
    simp at h
    exact ⟨h, hb⟩

theorem infix_of_prefix_part (buf X : List Char) : buf <:+: buf ++ X :=
  (List.prefix_append buf X).isInfix

theorem infix_extend_left {t rest buf : List Char} (c : Char) (h : t <:+: rest) :
    t <:+: buf ++ c :: rest := by
  have h2 : rest <:+ buf ++ c :: rest := (List.suffix_cons c rest).trans (List.suffix_append buf _)
  exact h.trans h2.isInfix

theorem scan_mem_aux : ∀ n (cs : List Char), cs.length ≤ n → ∀ st buf acc s,
    s ∈ scanStmts cs st buf acc →
    s ∈ acc ∨ ∃ t, t <:+: (buf ++ cs) ∧ s = strip t ∧ strip t ≠ [] := by
  intro n
  induction n with
  | zero =>
    intro cs hl st buf acc s hs
    have h0 : cs = [] := by
      cases cs with
      | nil => rfl
      | cons c r => simp at hl
    subst h0
    rw [scanStmts_nil] at hs
    rcases List.mem_append.mp hs with h | h
    · exact Or.inl h
    · obtain ⟨he, hne⟩ := mem_emitStmt h
      exact Or.inr ⟨buf, by simp, he, hne⟩
  | succ n ih =>
    intro cs hl st buf acc s hs
    cases cs with
    | nil =>
      rw [scanStmts_nil] at hs
      rcases List.mem_append.mp hs with h | h
      · exact Or.inl h
      · obtain ⟨he, hne⟩ := mem_emitStmt h
        exact Or.inr ⟨buf, by simp, he, hne⟩
    | cons c a' =>
      have hl' : a'.length ≤ n := by
        simp at hl
        omega
      cases st with
      | none =>
        by_cases hq : c = '\'' ∨ c = '"'
        · rw [scanStmts_cons_none, if_pos hq] at hs
          rcases ih a' hl' (some c) (buf ++ [c]) acc s hs with h | ⟨t, ht, he, hne⟩
          · exact Or.inl h
          · refine Or.inr ⟨t, ?_, he, hne⟩
            rw [show (buf ++ [c]) ++ a' = buf ++ c :: a' from by simp] at ht
            exact ht
        · by_cases hsemi : c = ';'
          · rw [scanStmts_cons_none, if_neg hq, if_pos hsemi] at hs
            rcases ih a' hl' none [] (acc ++ emitStmt buf) s hs with h | ⟨t, ht, he, hne⟩
            · rcases List.mem_append.mp h with h2 | h2
              · exact Or.inl h2
              · obtain ⟨he, hne⟩ := mem_emitStmt h2
                exact Or.inr ⟨buf, infix_of_prefix_part buf (c :: a'), he, hne⟩
            · refine Or.inr ⟨t, ?_, he, hne⟩
              rw [List.nil_append] at ht
              exact infix_extend_left c ht
          · rw [scanStmts_cons_none, if_neg hq, if_neg hsemi] at hs
            rcases ih a' hl' none (buf ++ [c]) acc s hs with h | ⟨t, ht, he, hne⟩
            · exact Or.inl h
            · refine Or.inr ⟨t, ?_, he, hne⟩
              rw [show (buf ++ [c]) ++ a' = buf ++ c :: a' from by simp] at ht
              exact ht
      | some q =>
        cases a' with
        | nil =>
          rw [scanStmts_one] at hs
          rcases List.mem_append.mp hs with h | h
          · exact Or.inl h
          · obtain ⟨he, hne⟩ := mem_emitStmt h
            exact Or.inr ⟨buf ++ [c], by simp, he, hne⟩
        | cons c2 a'' =>
          have hl'' : a''.length ≤ n := by
            simp at hl
            omega
          have hl2 : (c2 :: a'').length ≤ n := by
            simp at hl ⊢
            omega
          by_cases hcq : c = q
          · by_cases h2 : c2 = q
            · rw [scanStmts_pair, if_pos hcq, if_pos h2] at hs
              rcases ih a'' hl'' (some q) (buf ++ [c, c2]) acc s hs with h | ⟨t, ht, he, hne⟩
              · exact Or.inl h
              · refine Or.inr ⟨t, ?_, he, hne⟩
                rw [show (buf ++ [c, c2]) ++ a'' = buf ++ c :: c2 :: a'' from by simp] at ht
                exact ht
            · rw [scanStmts_pair, if_pos hcq, if_neg h2] at hs
              rcases ih (c2 :: a'') hl2 none (buf ++ [c]) acc s hs with h | ⟨t, ht, he, hne⟩
              · exact Or.inl h
              · refine Or.inr ⟨t, ?_, he, hne⟩
                rw [show (buf ++ [c]) ++ c2 :: a'' = buf ++ c :: c2 :: a'' from by simp] at ht
                exact ht
          · rw [scanStmts_pair, if_neg hcq] at hs
            rcases ih (c2 :: a'') hl2 (some q) (buf ++ [c]) acc s hs with h | ⟨t, ht, he, hne⟩
            · exact Or.inl h
            · refine Or.inr ⟨t, ?_, he, hne⟩
              rw [show (buf ++ [c]) ++ c2 :: a'' = buf ++ c :: c2 :: a'' from by simp] at ht
              exact ht

theorem scan_mem {cs : List Char} {s : List Char}
    (h : s ∈ scanStmts cs none [] []) :
    ∃ t, t <:+: cs ∧ s = strip t ∧ strip t ≠ [] := by
  rcases scan_mem_aux cs.length cs le_rfl none [] [] s h with h0 | ⟨t, ht, he, hne⟩
  · simp at h0
  · exact ⟨t, by simpa using ht, he, hne⟩

theorem strip_nil : strip ([] : List Char) = [] := rfl

theorem scan_state_facts : ∀ n (cs : List Char), cs.length ≤ n →
    (∀ s ∈ scanStmts cs none [] [], noOutSemi s none = true) ∧
    (∀ s ∈ (scanStmts cs none [] []).dropLast, qscan s none = none) := by
  intro n
  induction n with
  | zero =>
    intro cs hl
    have h0 : cs = [] := by
      cases cs with
      | nil => rfl
      | cons c r => simp at hl
    subst h0
    constructor <;> intro s hs <;> rw [scanStmts_nil] at hs <;>
      simp [emitStmt, strip_nil] at hs
  | succ n ih =>
    intro cs hl
    rcases chunk_aux (n + 1) cs hl none (Or.inl rfl) with hno | ⟨a, b, hab, hn, hq⟩
    · have hval : scanStmts cs none [] [] = emitStmt cs := by
        rw [scan_end_aux (n + 1) cs hl none hno [] []]
        simp
      constructor
      · intro s hs
        rw [hval] at hs
        obtain ⟨he, hne⟩ := mem_emitStmt hs
        rw [he]
        exact (strip_scan_transfer cs).1 hno
      · intro s hs
        rw [hval, emitStmt] at hs
        by_cases hb : strip cs = []
        · rw [if_pos hb] at hs
          simp at hs
        · rw [if_neg hb] at hs
          simp at hs
    · subst hab
      have hla : a.length ≤ n + 1 := by
        simp at hl ⊢
        omega
      have hlb : b.length ≤ n := by
        simp at hl ⊢
        omega
      have hval : scanStmts (a ++ ';' :: b) none [] [] =
          emitStmt a ++ scanStmts b none [] [] := by
        rw [scan_through_aux (n + 1) a hla none (Or.inl rfl) hn b [] [], hq,
          scanStmts_cons_none, if_neg (by simp), if_pos rfl,
          scanStmts_acc b none [] ([] ++ emitStmt ([] ++ a))]
        simp
      have hIH := ih b hlb
      constructor
      · intro s hs
        rw [hval] at hs
        rcases List.mem_append.mp hs with h | h
        · obtain ⟨he, hne⟩ := mem_emitStmt h
          rw [he]
          exact (strip_scan_transfer a).1 hn
        · exact hIH.1 s h
      · intro s hs
        rw [hval] at hs
        cases hR : scanStmts b none [] [] with
        | nil =>
          rw [hR, List.append_nil, emitStmt] at hs
          by_cases hb2 : strip a = []
          · rw [if_pos hb2] at hs
            simp at hs
          · rw [if_neg hb2] at hs
            simp at hs
        | cons r0 rs =>
          rw [hR, List.dropLast_append] at hs
          simp only [List.isEmpty_cons, if_false] at hs
          rcases List.mem_append.mp hs with h | h
          · obtain ⟨he, hne⟩ := mem_emitStmt h
            rw [he]
            exact (strip_scan_transfer a).2 hq
          · apply hIH.2
            rw [hR]
            exact h

/-! Invariants of the emitted statements. -/

theorem processLine_some {line l2 : List Char} (h : processLine line = some l2) :
    hasDD l2 = false ∧ strip l2 ≠ [] ∧ (∀ c ∈ l2, c ∈ line) := by
  simp only [processLine] at h
  by_cases h1 : startsWithDD (strip line) = true
  · rw [if_pos h1] at h
    simp at h
  · rw [if_neg h1] at h
    by_cases h2 : hasDD line = true
    · rw [if_pos h2] at h
      by_cases h3 : strip (truncAtDD line) = []
      · rw [if_pos h3] at h
        simp at h
      · rw [if_neg h3] at h
        simp at h
        subst h
        exact ⟨hasDD_truncAtDD line, h3, fun c hc => (truncAtDD_front line).subset hc⟩
    · rw [if_neg h2] at h
      by_cases h3 : strip line = []
      · rw [if_pos h3] at h
        simp at h
      · rw [if_neg h3] at h
        simp at h
        subst h
        exact ⟨by simpa using h2, h3, fun c hc => hc⟩

theorem cleanSQL_lines (s : List Char) :
    ∀ l ∈ (splitLines s).filterMap processLine,
      hasDD l = false ∧ strip l ≠ [] ∧ '\n' ∉ l := by
  intro l hl
  obtain ⟨line, hline, hpl⟩ := List.mem_filterMap.mp hl
  obtain ⟨hDD, hne, hsub⟩ := processLine_some hpl
  exact ⟨hDD, hne, fun hnl => mem_splitLines_no_nl hline (hsub _ hnl)⟩

theorem hasDD_joinNL {ls : List (List Char)} (h : ∀ l ∈ ls, hasDD l = false) :
    hasDD (joinNL ls) = false := by
  induction ls with
  | nil => rfl
  | cons l ls ih =>
    cases ls with
    | nil =>
      rw [joinNL]
      exact h l (by simp)
    | cons l2 ls' =>
      rw [joinNL, hasDD_append]
      have hJ : hasDD ('\n' :: joinNL (l2 :: ls')) = false := by
        rw [hasDD_cons]
        have hih := ih fun x hx => h x (by simp [List.mem_cons.mp hx])
        simp [hih]
      simp [h l (by simp), hJ, headDash]

theorem cleanSQL_hasDD (s : List Char) : hasDD (cleanSQL s) = false := by
  rw [cleanSQL]
  exact hasDD_joinNL fun l hl => (cleanSQL_lines s l hl).1

theorem splitLines_cleanSQL {s : List Char}
    (hne : (splitLines s).filterMap processLine ≠ []) :
    splitLines (cleanSQL s) = (splitLines s).filterMap processLine := by
  rw [cleanSQL]
  exact splitLines_joinNL hne fun l hl => (cleanSQL_lines s l hl).2.2

theorem lines_nonblank_of_infix {s inp : List Char}
    (hs : s <:+: cleanSQL inp) (hstrip : strip s = s) (hne : s ≠ []) :
    ∀ l ∈ splitLines s, strip l ≠ [] := by
  intro l hl
  have hsne : strip s ≠ [] := by
    rw [hstrip]
    exact hne
  rcases mem_trichotomy hl with h | h | h
  · obtain ⟨t0, ht0⟩ := splitLines_head s
    rw [ht0] at h
    simp at h
    obtain ⟨c, cs, hcs, hcw⟩ := strip_head_not_ws hsne
    rw [hstrip] at hcs
    have hcnl : (!(c == '\n')) = true := by
      simp
      intro he
      rw [he] at hcw
      simp [pyIsSpace] at hcw
    rw [h, hcs, List.takeWhile_cons, if_pos hcnl]
    exact strip_ne_nil_of_mem (by simp) hcw
  · rw [splitLines_getLast] at h
    obtain ⟨cs, c, hcs, hcw⟩ := strip_last_not_ws hsne
    rw [hstrip] at hcs
    have hrev : s.reverse = c :: cs.reverse := by
      rw [hcs]
      simp
    have hcnl : (!(c == '\n')) = true := by
      simp
      intro he
      rw [he] at hcw
      simp [pyIsSpace] at hcw
    rw [h, hrev, List.takeWhile_cons, if_pos hcnl]
    exact strip_ne_nil_of_mem (c := c) (by simp) hcw
  · have hmem := mem_mid_of_sub hs h
    cases hk : (splitLines inp).filterMap processLine with
    | nil =>
      have hcl : cleanSQL inp = [] := by
        rw [cleanSQL, hk]
        rfl
      rw [hcl] at hs
      exact absurd (List.eq_nil_of_sublist_nil hs.sublist) hne
    | cons k0 ks =>
      rw [splitLines_cleanSQL (by rw [hk]; simp)] at hmem
      exact (cleanSQL_lines inp l hmem).2.1

theorem split_stmt_facts {inp s : List Char} (h : s ∈ split_sql_statements inp) :
    s ≠ [] ∧ strip s = s ∧ hasDD s = false ∧ (∀ l ∈ splitLines s, strip l ≠ []) ∧
    noOutSemi s none = true := by
  rw [split_sql_statements] at h
  obtain ⟨t, ht, he, hne⟩ := scan_mem h
  have hDDt : hasDD t = false := hasDD_infix ht (cleanSQL_hasDD inp)
  have hinf : s <:+: cleanSQL inp := by
    rw [he]
    exact (strip_within t).trans ht
  refine ⟨by rw [he]; exact hne, by rw [he]; exact strip_idem t, ?_, ?_, ?_⟩
  · rw [he]
    exact hasDD_strip hDDt
  · exact lines_nonblank_of_infix hinf (by rw [he]; exact strip_idem t) (by rw [he]; exact hne)
  · exact (scan_state_facts (cleanSQL inp).length (cleanSQL inp) le_rfl).1 s h

theorem split_stmt_qscan {inp : List Char} :
    ∀ s ∈ (split_sql_statements inp).dropLast, qscan s none = none := by
  intro s hs
  rw [split_sql_statements] at hs
  exact (scan_state_facts (cleanSQL inp).length (cleanSQL inp) le_rfl).2 s hs

/-! Round trip: re-splitting the re-joined output. -/

theorem infix_joinNL {ls : List (List Char)} {l : List Char} (h : l ∈ ls) :
    l <:+: joinNL ls := by
  induction ls with
  | nil => simp at h
  | cons x ls ih =>
    rcases List.mem_cons.mp h with rfl | h'
    · cases ls with
      | nil => exact List.infix_refl l
      | cons y ls' =>
        rw [joinNL]
        exact ⟨[], '\n' :: joinNL (y :: ls'), by simp⟩
    · cases ls with
      | nil => simp at h'
      | cons y ls' =>
        rw [joinNL]
        rcases ih h' with ⟨s, r, hsr⟩
        exact ⟨x ++ '\n' :: s, r, by rw [← hsr]; simp⟩

theorem hasDD_of_mem_splitLines {x l : List Char} (hl : l ∈ splitLines x)
    (hx : hasDD x = false) : hasDD l = false := by
  have hinf : l <:+: x := by
    have h1 := infix_joinNL hl
    rw [joinNL_splitLines] at h1
    exact h1
  exact hasDD_infix hinf hx

theorem getLastD_mem {xs : List (List Char)} (h : xs ≠ []) : xs.getLastD [] ∈ xs := by
  rw [List.getLastD_eq_getLast?, List.getLast?_eq_getLast xs h]
  simp [List.getLast_mem]

theorem joinSemi_lines : ∀ (parts : List (List Char)),
    (∀ s ∈ parts, hasDD s = false) →
    (∀ s ∈ parts, ∀ l ∈ splitLines s, strip l ≠ []) →
    parts ≠ [] →
    ∀ l ∈ splitLines (joinSemi parts), hasDD l = false ∧ strip l ≠ [] := by
  intro parts
  induction parts with
  | nil =>
    intro _ _ hne
    exact absurd rfl hne
  | cons x parts ih =>
    intro hDD hlines _ l hmem
    cases parts with
    | nil =>
      rw [joinSemi] at hmem
      exact ⟨hasDD_of_mem_splitLines hmem (hDD x (by simp)),
        hlines x (by simp) l hmem⟩
    | cons y parts' =>
      rw [joinSemi,
        show x ++ ';' :: '\n' :: joinSemi (y :: parts') =
          (x ++ [';']) ++ '\n' :: joinSemi (y :: parts') from by simp,
        splitLines_append] at hmem
      rcases List.mem_append.mp hmem with hm | hm
      · rw [splitLines_append_gen x [';'],
          show splitLines [';'] = [[';']] from rfl, glueLines] at hm
        rcases List.mem_append.mp hm with hm2 | hm2
        · have hmx : l ∈ splitLines x := (List.dropLast_sublist _).subset hm2
          exact ⟨hasDD_of_mem_splitLines hmx (hDD x (by simp)),
            hlines x (by simp) l hmx⟩
        · simp at hm2
          subst hm2
          have hgm : (splitLines x).getLast?.getD [] ∈ splitLines x := by
            rw [← List.getLastD_eq_getLast?]
            exact getLastD_mem (splitLines_ne_nil x)
          constructor
          · rw [hasDD_append,
              hasDD_of_mem_splitLines hgm (hDD x (by simp))]
            simp [hasDD, headDash]
          · exact strip_ne_nil_of_mem (c := ';') (by simp) rfl
      · exact ih (fun s hs => hDD s (by simp [hs])) (fun s hs => hlines s (by simp [hs]))
          (by simp) l hm

theorem processLine_keep {l : List Char} (hDD : hasDD l = false) (hne : strip l ≠ []) :
    processLine l = some l := by
  simp only [processLine]
  have hsw : startsWithDD (strip l) = false := by
    cases hsw : startsWithDD (strip l) with
    | false => rfl
    | true => exact absurd (startsWithDD_hasDD hsw) (by simp [hasDD_strip hDD])
  rw [if_neg (show ¬startsWithDD (strip l) = true from by simp [hsw])]
  rw [show (if hasDD l = true then truncAtDD l else l) = l from by rw [if_neg (by simp [hDD])]]
  rw [if_neg hne]

theorem filterMap_processLine_id {ls : List (List Char)}
    (h : ∀ l ∈ ls, hasDD l = false ∧ strip l ≠ []) :
    ls.filterMap processLine = ls := by
  induction ls with
  | nil => rfl
  | cons l ls ih =>
    have hl := h l (by simp)
    rw [List.filterMap_cons, processLine_keep hl.1 hl.2,
      ih fun x hx => h x (by simp [hx])]

theorem roundtrip_clean {parts : List (List Char)}
    (hDD : ∀ s ∈ parts, hasDD s = false)
    (hlines : ∀ s ∈ parts, ∀ l ∈ splitLines s, strip l ≠ []) :
    cleanSQL (joinSemi parts) = joinSemi parts := by
  cases parts with
  | nil => rfl
  | cons x parts' =>
    have hfacts := joinSemi_lines (x :: parts') hDD hlines (by simp)
    rw [cleanSQL, filterMap_processLine_id hfacts, joinNL_splitLines]

theorem roundtrip_scan : ∀ (parts : List (List Char)),
    (∀ s ∈ parts, strip s = s ∧ s ≠ [] ∧ noOutSemi s none = true) →
    (∀ s ∈ parts.dropLast, qscan s none = none) →
    ∀ (buf : List Char), (∀ c ∈ buf, pyIsSpace c = true) →
    ∀ acc, scanStmts (joinSemi parts) none buf acc = acc ++ parts := by
  intro parts
  induction parts with
  | nil =>
    intro _ _ buf hbuf acc
    rw [joinSemi, scanStmts_nil, emitStmt, if_pos (strip_eq_nil_iff.mpr hbuf)]
  | cons x parts ih =>
    intro hall hql buf hbuf acc
    obtain ⟨hsx, hnx, hnox⟩ := hall x (by simp)
    cases parts with
    | nil =>
      rw [joinSemi, scan_end_aux x.length x le_rfl none hnox buf acc,
        emitStmt, strip_ws_append hbuf, hsx, if_neg hnx]
    | cons y parts' =>
      have hqx : qscan x none = none := by
        apply hql x
        rw [List.dropLast_cons_of_ne_nil (by simp)]
        simp
      have hemit : emitStmt (buf ++ x) = [x] := by
        rw [emitStmt, strip_ws_append hbuf, hsx, if_neg hnx]
      rw [joinSemi,
        scan_through_aux x.length x le_rfl none (Or.inl rfl) hnox
          ('\n' :: joinSemi (y :: parts')) buf acc,
        hqx, scanStmts_cons_none, if_neg (by simp), if_pos rfl,
        scanStmts_cons_none, if_neg (by simp), if_neg (by simp), hemit,
        List.nil_append,
        ih (fun s hs => hall s (by simp [hs]))
          (fun s hs => hql s (by rw [List.dropLast_cons_of_ne_nil (by simp)]; exact List.mem_cons_of_mem x hs))
          ['\n'] (by simp [pyIsSpace]) (acc ++ [x])]
      simp

theorem split_roundtrip (inp : List Char) :
    split_sql_statements (joinSemi (split_sql_statements inp)) = split_sql_statements inp := by
  have hfacts : ∀ s ∈ split_sql_statements inp,
      s ≠ [] ∧ strip s = s ∧ hasDD s = false ∧ (∀ l ∈ splitLines s, strip l ≠ []) ∧
      noOutSemi s none = true := fun s hs => split_stmt_facts hs
  have hclean : cleanSQL (joinSemi (split_sql_statements inp)) =
      joinSemi (split_sql_statements inp) :=
    roundtrip_clean (fun s hs => (hfacts s hs).2.2.1) (fun s hs => (hfacts s hs).2.2.2.1)
  rw [split_sql_statements, hclean,
    roundtrip_scan (split_sql_statements inp)
      (fun s hs => ⟨(hfacts s hs).2.1, (hfacts s hs).1, (hfacts s hs).2.2.2.2⟩)
      split_stmt_qscan [] (by simp) []]
  rfl

/-! Lemmas supporting the no-semicolon characterisation and comment-only inputs. -/

theorem noOutSemi_of_no_semi : ∀ n (cs : List Char), cs.length ≤ n → ';' ∉ cs →
    ∀ st, noOutSemi cs st = true := by
  intro n
  induction n with
  | zero =>
    intro cs hl _ st
    have h0 : cs = [] := by
      cases cs with
      | nil => rfl
      | cons c r => simp at hl
    subst h0
    rfl
  | succ n ih =>
    intro cs hl hm st
    cases cs with
    | nil => rfl
    | cons c a' =>
      have hl' : a'.length ≤ n := by
        simp at hl
        omega
      have hm' : ';' ∉ a' := fun hx => hm (by simp [hx])
      have hcs : ¬c = ';' := fun hx => hm (by simp [hx])
      cases st with
      | none =>
        rw [noOutSemi_cons_none, if_neg hcs]
        by_cases hq : c = '\'' ∨ c = '"'
        · rw [if_pos hq]
          exact ih a' hl' hm' (some c)
        · rw [if_neg hq]
          exact ih a' hl' hm' none
      | some q =>
        cases a' with
        | nil => rfl
        | cons c2 a'' =>
          have hl'' : a''.length ≤ n := by
            simp at hl
            omega
          have hl2 : (c2 :: a'').length ≤ n := by
            simp at hl ⊢
            omega
          by_cases hcq : c = q
          · by_cases h2 : c2 = q
            · rw [noOutSemi_pair, if_pos hcq, if_pos h2]
              exact ih a'' hl'' (fun hx => hm (by simp [hx])) (some q)
            · rw [noOutSemi_pair, if_pos hcq, if_neg h2]
              exact ih (c2 :: a'') hl2 hm' none
          · rw [noOutSemi_pair, if_neg hcq]
            exact ih (c2 :: a'') hl2 hm' (some q)

theorem processLine_no_dd {l : List Char} (hDD : hasDD l = false) :
    processLine l = if (strip l).isEmpty then none else some l := by
  by_cases h : strip l = []
  · simp only [processLine]
    have hsw : startsWithDD (strip l) = false := by
      rw [h]
      rfl
    rw [if_neg (show ¬startsWithDD (strip l) = true from by simp [hsw]),
      show (if hasDD l = true then truncAtDD l else l) = l from by rw [if_neg (by simp [hDD])],
      if_pos h, if_pos (by simp [h])]
  · rw [processLine_keep hDD h, if_neg (by simpa using h)]

theorem filterMap_eq_filter {ls : List (List Char)} (h : ∀ l ∈ ls, hasDD l = false) :
    ls.filterMap processLine = ls.filter fun l => !(strip l).isEmpty := by
  induction ls with
  | nil => rfl
  | cons l ls ih =>
    rw [List.filterMap_cons, processLine_no_dd (h l (by simp)), List.filter_cons]
    by_cases he : (strip l).isEmpty = true
    · rw [if_pos he]
      simp [he]
      exact ih fun x hx => h x (by simp [hx])
    · rw [if_neg he]
      simp [he]
      exact ih fun x hx => h x (by simp [hx])

theorem mem_splitLines_chars {s : List Char} :
    ∀ {l : List Char}, l ∈ splitLines s → ∀ {c : Char}, c ∈ l → c ∈ s := by
  induction s with
  | nil =>
    intro l hl c hc
    simp [splitLines] at hl
    subst hl
    simp at hc
  | cons a r ih =>
    intro l hl c hc
    by_cases ha : a = '\n'
    · subst ha
      rw [splitLines_cons_nl] at hl
      rcases List.mem_cons.mp hl with rfl | hl'
      · simp at hc
      · exact List.mem_cons_of_mem _ (ih hl' hc)
    · obtain ⟨l0, ls, hr, hcons⟩ := splitLines_cons_ne a r ha
      rw [hcons] at hl
      rcases List.mem_cons.mp hl with rfl | hl'
      · rcases List.mem_cons.mp hc with rfl | hc'
        · simp
        · exact List.mem_cons_of_mem _ (ih (hr ▸ List.mem_cons_self l0 ls) hc')
      · exact List.mem_cons_of_mem _ (ih (hr ▸ List.mem_cons_of_mem l0 hl') hc)

theorem mem_joinNL {ls : List (List Char)} {c : Char} (hc : c ∈ joinNL ls) :
    c = '\n' ∨ ∃ l ∈ ls, c ∈ l := by
  induction ls with
  | nil => simp [joinNL] at hc
  | cons l ls ih =>
    cases ls with
    | nil =>
      rw [joinNL] at hc
      exact Or.inr ⟨l, by simp, hc⟩
    | cons l2 ls' =>
      rw [joinNL] at hc
      rcases List.mem_append.mp hc with h | h
      · exact Or.inr ⟨l, by simp, h⟩
      · rcases List.mem_cons.mp h with rfl | h'
        · exact Or.inl rfl
        · rcases ih h' with h2 | ⟨l3, hl3, hcl3⟩
          · exact Or.inl h2
          · exact Or.inr ⟨l3, by simp [List.mem_cons.mp hl3], hcl3⟩

/-! Lemmas about the quote-aware per-line scan of `remove_sql_comments`. -/

theorem rsScan_cons_none (c : Char) (rest : List Char) (prev : Option Char) :
    rsScan (c :: rest) none prev =
      if c = '\'' ∨ c = '"' then c :: rsScan rest (some c) (some c)
      else if c = '-' ∧ rest.head? = some '-' then []
      else c :: rsScan rest none (some c) := by
  conv_lhs => rw [rsScan]

theorem rsScan_pair (c c2 : Char) (rest2 : List Char) (q : Char) (prev : Option Char) :
    rsScan (c :: c2 :: rest2) (some q) prev =
      if c = q then
        (if prev = some '\\' then c :: rsScan (c2 :: rest2) (some q) (some c)
         else if c2 = q then c :: c2 :: rsScan rest2 (some q) (some c2)
         else c :: rsScan (c2 :: rest2) none (some c))
      else c :: rsScan (c2 :: rest2) (some q) (some c) := by
  conv_lhs => rw [rsScan]

theorem rsScan_one (c : Char) (q : Char) (prev : Option Char) :
    rsScan [c] (some q) prev = [c] := by
  conv_lhs => rw [rsScan]

theorem rsScan_trunc_out (rest : List Char) (prev : Option Char) :
    rsScan ('-' :: '-' :: rest) none prev = [] := by
  rw [rsScan_cons_none, if_neg (by decide), if_pos ⟨rfl, rfl⟩]

theorem rsScan_dash_in_string {q : Char} (hq : q = '\'' ∨ q = '"') (rest : List Char)
    (prev : Option Char) :
    rsScan ('-' :: rest) (some q) prev = '-' :: rsScan rest (some q) (some '-') := by
  have hne : ¬ '-' = q := by
    rcases hq with rfl | rfl <;> decide
  cases rest with
  | nil => rw [rsScan_one, show rsScan [] (some q) (some '-') = [] from rfl]
  | cons c2 rest2 => rw [rsScan_pair, if_neg hne]

theorem rsScan_whole_or_cut_aux : ∀ n (line : List Char), line.length ≤ n → ∀ st prev,
    rsScan line st prev = line ∨
    ∃ suf, line = rsScan line st prev ++ '-' :: '-' :: suf := by
  intro n
  induction n with
  | zero =>
    intro line hl st prev
    have h0 : line = [] := by
      cases line with
      | nil => rfl
      | cons c r => simp at hl
    subst h0
    exact Or.inl rfl
  | succ n ih =>
    intro line hl st prev
    cases line with
    | nil => exact Or.inl rfl
    | cons c a' =>
      have hl' : a'.length ≤ n := by
        simp at hl
        omega
      cases st with
      | none =>
        by_cases hq : c = '\'' ∨ c = '"'
        · have hv : rsScan (c :: a') none prev = c :: rsScan a' (some c) (some c) := by
            rw [rsScan_cons_none, if_pos hq]
          rcases ih a' hl' (some c) (some c) with h | ⟨suf, hsuf⟩
          · left
            rw [hv, h]
          · right
            refine ⟨suf, ?_⟩
            rw [hv, List.cons_append, ← hsuf]
        · by_cases hd : c = '-' ∧ a'.head? = some '-'
          · have hv : rsScan (c :: a') none prev = [] := by
              rw [rsScan_cons_none, if_neg hq, if_pos hd]
            obtain ⟨hc, hh⟩ := hd
            cases a' with
            | nil => simp at hh
            | cons x a'' =>
              simp at hh
              right
              refine ⟨a'', ?_⟩
              rw [hv]
              simp [hc, hh]
          · have hv : rsScan (c :: a') none prev = c :: rsScan a' none (some c) := by
              rw [rsScan_cons_none, if_neg hq, if_neg hd]
            rcases ih a' hl' none (some c) with h | ⟨suf, hsuf⟩
            · left
              rw [hv, h]
            · right
              refine ⟨suf, ?_⟩
              rw [hv, List.cons_append, ← hsuf]
      | some q =>
        cases a' with
        | nil =>
          left
          rw [rsScan_one]
        | cons c2 a'' =>
          have hl'' : a''.length ≤ n := by
            simp at hl
            omega
          have hl2 : (c2 :: a'').length ≤ n := by
            simp at hl ⊢
            omega
          by_cases hcq : c = q
          · by_cases hp : prev = some '\\'
            · have hv : rsScan (c :: c2 :: a'') (some q) prev =
                  c :: rsScan (c2 :: a'') (some q) (some c) := by
                rw [rsScan_pair, if_pos hcq, if_pos hp]
              rcases ih (c2 :: a'') hl2 (some q) (some c) with h | ⟨suf, hsuf⟩
              · left
                rw [hv, h]
              · right
                refine ⟨suf, ?_⟩
                rw [hv, List.cons_append, ← hsuf]
            · by_cases h2 : c2 = q
              · have hv : rsScan (c :: c2 :: a'') (some q) prev =
                    c :: c2 :: rsScan a'' (some q) (some c2) := by
                  rw [rsScan_pair, if_pos hcq, if_neg hp, if_pos h2]
                rcases ih a'' hl'' (some q) (some c2) with h | ⟨suf, hsuf⟩
                · left
                  rw [hv, h]
                · right
                  refine ⟨suf, ?_⟩
                  rw [hv, List.cons_append, List.cons_append, ← hsuf]
              · have hv : rsScan (c :: c2 :: a'') (some q) prev =
                    c :: rsScan (c2 :: a'') none (some c) := by
                  rw [rsScan_pair, if_pos hcq, if_neg hp, if_neg h2]
                rcases ih (c2 :: a'') hl2 none (some c) with h | ⟨suf, hsuf⟩
                · left
                  rw [hv, h]
                · right
                  refine ⟨suf, ?_⟩
                  rw [hv, List.cons_append, ← hsuf]
          · have hv : rsScan (c :: c2 :: a'') (some q) prev =
                c :: rsScan (c2 :: a'') (some q) (some c) := by
              rw [rsScan_pair, if_neg hcq]
            rcases ih (c2 :: a'') hl2 (some q) (some c) with h | ⟨suf, hsuf⟩
            · left
              rw [hv, h]
            · right
              refine ⟨suf, ?_⟩
              rw [hv, List.cons_append, ← hsuf]

theorem rsScan_whole_or_cut (line : List Char) :
    rsScan line none none = line ∨
    ∃ suf, line = rsScan line none none ++ '-' :: '-' :: suf :=
  rsScan_whole_or_cut_aux line.length line le_rfl none none

/-! Characterisation for inputs with no semicolon and no comment marker. -/

theorem split_no_semi_chars {s : List Char} (h1 : ';' ∉ s) (h2 : hasDD s = false) :
    split_sql_statements s =
      if ((splitLines s).filter fun l => !(strip l).isEmpty) = [] then []
      else [strip (joinNL ((splitLines s).filter fun l => !(strip l).isEmpty))] := by
  have hlines : ∀ l ∈ splitLines s, hasDD l = false := fun l hl =>
    hasDD_of_mem_splitLines hl h2
  have hkept : (splitLines s).filterMap processLine =
      (splitLines s).filter fun l => !(strip l).isEmpty := filterMap_eq_filter hlines
  have hclean : cleanSQL s = joinNL ((splitLines s).filter fun l => !(strip l).isEmpty) := by
    rw [cleanSQL, hkept]
  have hnos : ';' ∉ cleanSQL s := by
    intro hc
    rw [hclean] at hc
    rcases mem_joinNL hc with he | ⟨l, hl, hcl⟩
    · exact absurd he (by decide)
    · exact h1 (mem_splitLines_chars (List.mem_of_mem_filter hl) hcl)
  have hns : noOutSemi (cleanSQL s) none = true :=
    noOutSemi_of_no_semi (cleanSQL s).length (cleanSQL s) le_rfl hnos none
  rw [split_sql_statements, scan_end_aux (cleanSQL s).length (cleanSQL s) le_rfl none hns [] [],
    List.nil_append, List.nil_append, hclean]
  cases hk : (splitLines s).filter fun l => !(strip l).isEmpty with
  | nil =>
    rw [if_pos rfl]
    rfl
  | cons k0 ks =>
    rw [if_neg (by simp)]
    have hk0 : strip k0 ≠ [] := by
      have hmem : k0 ∈ (splitLines s).filter fun l => !(strip l).isEmpty := by
        rw [hk]
        simp
      have hpred := (List.mem_filter.mp hmem).2
      intro hnil
      rw [hnil] at hpred
      simp at hpred
    obtain ⟨c, hcm, hcw⟩ : ∃ c ∈ k0, pyIsSpace c = false := by
      by_contra hco
      push_neg at hco
      apply hk0
      rw [strip_eq_nil_iff]
      intro c hc
      cases hcc : pyIsSpace c with
      | false => exact absurd hcc (hco c hc)
      | true => rfl
    have hcm2 : c ∈ joinNL (k0 :: ks) :=
      ((infix_joinNL (List.mem_cons_self k0 ks)).sublist.subset) hcm
    rw [emitStmt, if_neg (strip_ne_nil_of_mem hcm2 hcw)]

theorem split_comment_only {s : List Char}
    (h : ∀ l ∈ splitLines s, startsWithDD (strip l) = true) :
    split_sql_statements s = [] := by
  have hk : (splitLines s).filterMap processLine = [] := by
    rw [List.filterMap_eq_nil_iff]
    intro l hl
    simp only [processLine]
    rw [if_pos (h l hl)]
  rw [split_sql_statements, cleanSQL, hk]
  rfl

/-! Claim theorems. -/

/-- C1: a semicolon met while the scanner of `_split_sql_statements` is in
string mode (either quote character active) never terminates a statement:
it is appended verbatim to the current statement buffer and the scanner
stays in string mode, so only semicolons outside string mode split the
text.  Concretely, splitting `SELECT ';'; SELECT 2;` yields exactly the two
statements `SELECT ';'` and `SELECT 2`. -/
theorem C1_semicolon_in_string_kept :
    (∀ rest buf acc, scanStmts (';' :: rest) (some '\'') buf acc =
        scanStmts rest (some '\'') (buf ++ [';']) acc) ∧
    (∀ rest buf acc, scanStmts (';' :: rest) (some '"') buf acc =
        scanStmts rest (some '"') (buf ++ [';']) acc) ∧
    split_sql_statements (("SELECT ';'; SELECT 2;").toList) =
      [("SELECT ';'").toList, ("SELECT 2").toList] := by
  refine ⟨?_, ?_, by decide⟩
  · intro rest buf acc
    cases rest with
    | nil => rw [scanStmts_one, scanStmts_nil]
    | cons c2 rest2 => rw [scanStmts_pair, if_neg (by decide)]
  · intro rest buf acc
    cases rest with
    | nil => rw [scanStmts_one, scanStmts_nil]
    | cons c2 rest2 => rw [scanStmts_pair, if_neg (by decide)]

/-- C2: in the comment-removal loop of `remove_sql_comments` (src/run_sql.py),
a `--` marker at a position that the line's own quote scan places inside an
open string literal is data: in string mode the scanner copies a dash and
stays in string mode (for both quote characters), and the scan only ever
returns the whole line unchanged or the prefix ending exactly at a `--`;
a marker met outside any string truncates the line right there.  Concretely
a line whose only `--` lies inside quotes is left untouched, and a line
with `--` outside quotes is truncated at the marker's position. -/
theorem C2_marker_in_string_is_data :
    (∀ rest prev, rsScan ('-' :: '-' :: rest) none prev = []) ∧
    (∀ rest prev, rsScan ('-' :: rest) (some '\'') prev =
        '-' :: rsScan rest (some '\'') (some '-')) ∧
    (∀ rest prev, rsScan ('-' :: rest) (some '"') prev =
        '-' :: rsScan rest (some '"') (some '-')) ∧
    (∀ line, rsScan line none none = line ∨
        ∃ suf, line = rsScan line none none ++ '-' :: '-' :: suf) ∧
    remove_sql_comments (("SELECT '; -- not a comment' FROM t").toList) =
      ("SELECT '; -- not a comment' FROM t").toList ∧
    remove_sql_comments (("SELECT 1 -- trailing").toList) = ("SELECT 1 ").toList := by
  exact ⟨rsScan_trunc_out, fun rest prev => rsScan_dash_in_string (Or.inl rfl) rest prev,
    fun rest prev => rsScan_dash_in_string (Or.inr rfl) rest prev, rsScan_whole_or_cut,
    by decide, by decide⟩

/-- C3: while in string mode, the active quote character immediately
followed by the same quote character (a doubled quote) is consumed as two
literal content characters and the scanner remains in string mode; only an
undoubled matching quote exits string mode.  Concretely, splitting
`SELECT 'it''s fine';` yields the single statement `SELECT 'it''s fine'`. -/
theorem C3_doubled_quote_stays :
    (∀ rest buf acc, scanStmts ('\'' :: '\'' :: rest) (some '\'') buf acc =
        scanStmts rest (some '\'') (buf ++ ['\'', '\'']) acc) ∧
    (∀ rest buf acc, scanStmts ('"' :: '"' :: rest) (some '"') buf acc =
        scanStmts rest (some '"') (buf ++ ['"', '"']) acc) ∧
    split_sql_statements (("SELECT 'it''s fine';").toList) =
      [("SELECT 'it''s fine'").toList] := by
  refine ⟨?_, ?_, by decide⟩
  · intro rest buf acc
    rw [scanStmts_pair, if_pos rfl, if_pos rfl]
  · intro rest buf acc
    rw [scanStmts_pair, if_pos rfl, if_pos rfl]

/-- C4: when the character scan completes with a non-whitespace buffer (a
final statement without a terminating semicolon, in any quote state,
including an unterminated string literal), the trimmed buffer is appended
as the last statement and no error occurs.  Concretely
`split_sql_statements "SELECT 1"` is `["SELECT 1"]`. -/
theorem C4_final_buffer_emitted :
    (∀ st buf acc, strip buf ≠ [] → scanStmts [] st buf acc = acc ++ [strip buf]) ∧
    split_sql_statements (("SELECT 1").toList) = [("SELECT 1").toList] := by
  refine ⟨?_, by decide⟩
  intro st buf acc h
  rw [scanStmts_nil, emitStmt, if_neg h]

/-- Witness for C4: the general emission rule applied with an open
single-quote state (unterminated string literal) and a concrete buffer. -/
theorem C4_final_buffer_emitted_witness :
    strip (("SELECT 'abc").toList) ≠ [] ∧
    scanStmts [] (some '\'') (("SELECT 'abc").toList) [] =
      [] ++ [strip (("SELECT 'abc").toList)] :=
  ⟨by decide, C4_final_buffer_emitted.1 (some '\'') (("SELECT 'abc").toList) [] (by decide)⟩

/-- C5 fails as stated: the input below has no semicolon and no `--`
marker, yet the splitter does not return the trimmed input as the single
statement, because the comment-removal phase drops the interior blank
line. -/
theorem C5_counterexample :
    ';' ∉ ("SELECT 1\n\nFROM t").toList ∧
    hasDD (("SELECT 1\n\nFROM t").toList) = false ∧
    split_sql_statements (("SELECT 1\n\nFROM t").toList) =
      [("SELECT 1\nFROM t").toList] ∧
    split_sql_statements (("SELECT 1\n\nFROM t").toList) ≠
      [strip (("SELECT 1\n\nFROM t").toList)] := by
  decide

/-- C5 (amended): for every input with no semicolon and no `--` marker, the
splitter returns exactly one statement equal to the trimmed newline-join of
the input's non-blank lines (whitespace-only lines are dropped by the
comment-removal phase), and zero statements when every line is blank —
in particular when the input is blank. -/
theorem C5_no_semi_no_comment {s : List Char} (h1 : ';' ∉ s) (h2 : hasDD s = false) :
    split_sql_statements s =
      if ((splitLines s).filter fun l => !(strip l).isEmpty) = [] then []
      else [strip (joinNL ((splitLines s).filter fun l => !(strip l).isEmpty))] :=
  split_no_semi_chars h1 h2

/-- Witness for the amended C5 at a concrete comment-free input. -/
theorem C5_no_semi_no_comment_witness :
    ';' ∉ (" SELECT 1 ").toList ∧ hasDD ((" SELECT 1 ").toList) = false ∧
    split_sql_statements ((" SELECT 1 ").toList) =
      (if ((splitLines ((" SELECT 1 ").toList)).filter fun l => !(strip l).isEmpty) = [] then []
       else [strip (joinNL ((splitLines ((" SELECT 1 ").toList)).filter
         fun l => !(strip l).isEmpty))]) :=
  ⟨by decide, by decide, C5_no_semi_no_comment (by decide) (by decide)⟩

/-- C6: no element of the splitter's output is empty or whitespace-only
(each output statement is nonempty and equal to its own trim, hence
contains a non-whitespace character), and an input consisting solely of
comment lines produces the empty sequence. -/
theorem C6_outputs_nonblank :
    (∀ inp s, s ∈ split_sql_statements inp → s ≠ [] ∧ strip s = s) ∧
    (∀ s, (∀ l ∈ splitLines s, startsWithDD (strip l) = true) →
      split_sql_statements s = []) := by
  constructor
  · intro inp s hs
    obtain ⟨h1, h2, _, _, _⟩ := split_stmt_facts hs
    exact ⟨h1, h2⟩
  · intro s h
    exact split_comment_only h

/-- Witness for C6: a concrete output statement is nonempty and stripped,
and a concrete comment-only script splits to nothing. -/
theorem C6_outputs_nonblank_witness :
    (("SELECT 1").toList ≠ [] ∧ strip (("SELECT 1").toList) = ("SELECT 1").toList) ∧
    split_sql_statements (("-- only\n  -- comments").toList) = [] :=
  ⟨C6_outputs_nonblank.1 (("SELECT 1;").toList) (("SELECT 1").toList) (by decide),
   C6_outputs_nonblank.2 (("-- only\n  -- comments").toList) (by decide)⟩

/-- C7: splitting is idempotent under re-joining: for every input, joining
the output statements with the separator `;\n` and splitting again yields
exactly the same sequence of statements. -/
theorem C7_idempotent_rejoin (inp : List Char) :
    split_sql_statements (joinSemi (split_sql_statements inp)) =
      split_sql_statements inp :=
  split_roundtrip inp

/-- C8: the canonical splitter gives backslash no special treatment: a
quote character preceded by a backslash inside a string literal still exits
string mode (the backslash is ordinary content), so in `SELECT 'a\';` the
second quote closes the string and the following semicolon terminates the
statement. -/
theorem C8_backslash_no_escape :
    (∀ c rest buf acc, ¬c = '\'' →
      scanStmts ('\\' :: '\'' :: c :: rest) (some '\'') buf acc =
        scanStmts (c :: rest) none (buf ++ ['\\', '\'']) acc) ∧
    split_sql_statements (("SELECT 'a\\';").toList) = [("SELECT 'a\\'").toList] := by
  refine ⟨?_, by decide⟩
  intro c rest buf acc hc
  rw [scanStmts_pair, if_neg (by decide), scanStmts_pair, if_pos rfl, if_neg hc,
    List.append_assoc]
  rfl

/-- Witness for C8: the backslash-then-quote step applied at a concrete
following character. -/
theorem C8_backslash_no_escape_witness :
    ¬(';' = '\'') ∧
    scanStmts ('\\' :: '\'' :: ';' :: []) (some '\'') [] [] =
      scanStmts (';' :: []) none ([] ++ ['\\', '\'']) [] :=
  ⟨by decide, C8_backslash_no_escape.1 ';' [] [] [] (by decide)⟩

/-- C9: the splitter is total on strings: every input produces some ordered
sequence of statements, possibly empty, with no error, I/O, or external
state; even an unterminated string literal is legal input. -/
theorem C9_total_function :
    (∀ s : List Char, ∃ out : List (List Char), split_sql_statements s = out) ∧
    split_sql_statements [] = [] ∧
    split_sql_statements (("'unterminated").toList) = [("'unterminated").toList] := by
  refine ⟨fun s => ⟨split_sql_statements s, rfl⟩, by decide, by decide⟩

/-- C10: no statement emitted by `_split_sql_statements` contains the
two-character marker `--`: its comment-removal phase truncates every
retained line at the first `--` regardless of string-literal context, so
marker text never reaches the output — even when the `--` sits inside a
quoted string, as the concrete example shows. -/
theorem C10_no_marker_in_output :
    (∀ inp s, s ∈ split_sql_statements inp → hasDD s = false) ∧
    split_sql_statements (("SELECT '--x' FROM t;").toList) = [("SELECT '").toList] := by
  refine ⟨?_, by decide⟩
  intro inp s hs
  exact (split_stmt_facts hs).2.2.1

/-- Witness for C10 at a concrete input whose marker sits inside quotes. -/
theorem C10_no_marker_in_output_witness :
    ("SELECT '").toList ∈ split_sql_statements (("SELECT '--x' FROM t;").toList) ∧
    hasDD (("SELECT '").toList) = false :=
  ⟨by decide, C10_no_marker_in_output.1 (("SELECT '--x' FROM t;").toList)
    (("SELECT '").toList) (by decide)⟩

end SqlSplit
